import Mathlib

/-!
Shallow embedding of the `to-numbers` word-to-number parsing engine
(tokenizer, grammar compiler, numeral parser, facade) and proofs about it.

Conventions of the embedding:
* JS strings are modelled by `String` / `List Char`; the whitespace class
  used by the source (`charCode 32/9/10/13` and the `\s` regex on the
  inputs we consider) is modelled by the four ASCII whitespace characters.
* `toLowerCase` is modelled by ASCII case folding (the grammars and inputs
  treated here are ASCII or case-free).
* JS `Map` objects are modelled by association lists with unique keys;
  `Map.get` is `List.lookup`, `Map.set` is `mapSet` (overwrite or append).
* All numeric word values are natural numbers (as in the locale tables);
  final parse values, which may be negative or fractional, live in `ℚ`.
* Fallible entry points (`convert`, `parse` throwing on invalid input)
  return `Except String _`.
-/

namespace ToNumbers

/-! ## Characters and whitespace -/

/-- The whitespace characters the source checks for explicitly
(space, tab, line feed, carriage return - char codes 32, 9, 10, 13). -/
def isWs (c : Char) : Bool :=
  c = ' ' || c = '\t' || c = '\n' || c = '\r'

/-- ASCII case folding, modelling `String.prototype.toLowerCase` on the
ASCII inputs considered here. -/
def asciiLower (c : Char) : Char :=
  if 'A' ≤ c ∧ c ≤ 'Z' then Char.ofNat (c.toNat + 32) else c

/-- Lower-case a whole string (ASCII model of `toLowerCase`). -/
def lowerStr (s : String) : String :=
  String.mk (s.toList.map asciiLower)

/-- Drop trailing whitespace characters (the right half of `String.trim`). -/
def dropTrailingWs : List Char → List Char
  | [] => []
  | c :: rest =>
    let r := dropTrailingWs rest
    if r = [] && isWs c then [] else c :: r

/-- `String.prototype.trim` on the character list: drop leading and
trailing whitespace. -/
def trimL (l : List Char) : List Char :=
  dropTrailingWs (l.dropWhile isWs)

/-! ## `cleanInput` (tokenizer.ts)

The source first trims, then runs a fast scan `needsCleaning`; only when
that scan finds a double space or a `.`/`,` followed by a space or the end
does it apply the two regex replacements
`replace(/\s+/g, ' ')` and `replace(/[.,](?=\s|$)/g, '')`. -/

theorem length_dropWhile_le {α : Type} (p : α → Bool) (l : List α) :
    (l.dropWhile p).length ≤ l.length := by
  induction l with
  | nil => simp [List.dropWhile]
  | cons c rest ih =>
    by_cases h : p c
    · simp only [List.dropWhile, h]
      exact Nat.le_succ_of_le ih
    · simp [List.dropWhile, h]

/-- State-passing scan realizing `replace(/\s+/g, ' ')`: emit one space at
the start of each whitespace run, skip the rest of the run. -/
def collapseAux : Bool → List Char → List Char
  | _, [] => []
  | inRun, c :: rest =>
    if isWs c then
      if inRun then collapseAux true rest else ' ' :: collapseAux true rest
    else c :: collapseAux false rest

/-- `replace(/\s+/g, ' ')`: collapse every whitespace run to one space. -/
def collapseWs (l : List Char) : List Char :=
  collapseAux false l

/-- Is the character a `.` or `,` (the punctuation `cleanInput` strips)? -/
def isPunct (c : Char) : Bool := c = '.' || c = ','

/-- `replace(/[.,](?=\s|$)/g, '')`: delete every `.`/`,` that is directly
followed by whitespace or the end of the string (the lookahead does not
consume the following character). -/
def stripPunct : List Char → List Char
  | [] => []
  | c :: rest =>
    if isPunct c && (rest = [] || isWs (rest.headD ' ')) then stripPunct rest
    else c :: stripPunct rest

/-- The fast-path scan of the optimized `cleanInput`: does the (already
trimmed) string contain a double space, or a `.`/`,` followed by a space
or the end?  The scan checks only char code 32 (a plain space), exactly
as the source does. -/
def needsCleaningAux : Bool → List Char → Bool
  | _, [] => false
  | prevSp, c :: rest =>
    if c = ' ' then
      if prevSp then true else needsCleaningAux true rest
    else if isPunct c && (rest = [] || rest.headD ' ' = ' ') then true
    else needsCleaningAux false rest

def needsCleaning (l : List Char) : Bool := needsCleaningAux false l

/-- `cleanInput` from tokenizer.ts on character lists. -/
def cleanInputL (l : List Char) : List Char :=
  let t := trimL l
  if needsCleaning t then stripPunct (collapseWs t) else t

/-- `cleanInput` on strings. -/
def cleanInput (s : String) : String :=
  String.mk (cleanInputL s.toList)

/-! ## Compiled grammar (`ParserLocaleConfig`, types.ts)

JS `Map`s become association lists with unique keys, JS `Set`s become
lists queried with `contains`. -/

structure ParserConfig where
  /-- reverse lookup word → number (`wordToNumber`) -/
  wordToNumber : List (String × Nat)
  /-- scale word values (`scaleWords`) -/
  scaleWords : List Nat
  /-- words implying a coefficient of 2 when bare (`impliedDualWords`) -/
  impliedDualWords : List String
  /-- single words mapping to 1 (`oneWords`) -/
  oneWords : List String
  /-- locale uses postfix "one" qualifiers (`usesPostfixOne`) -/
  usesPostfixOne : Bool
  /-- `texts.and` (also the contents of `andWordsSet`) -/
  andTexts : List String
  /-- `texts.minus` -/
  minusTexts : List String
  /-- `texts.point` -/
  pointTexts : List String
  /-- `texts.only` -/
  onlyTexts : List String
  /-- single-word main currency units (`mainUnitSet`) -/
  mainUnitSingle : List String
  /-- multi-word main currency units, pre-split (`mainUnitMultiWord`) -/
  mainUnitMulti : List (List String)
  /-- single-word fractional currency units (`fractionalUnitSet`) -/
  fractionalUnitSingle : List String
  /-- multi-word fractional units, pre-split (`fractionalUnitMultiWord`) -/
  fractionalUnitMulti : List (List String)
  /-- ordinal word → value map (`ordinalWordToNumber`) -/
  ordinalWords : List (String × Nat)
  /-- `ordinalSuffix` (absent or empty ⇒ no suffix ordinals) -/
  ordinalSuffix : Option String
  /-- concatenated (space-free) script (`trim` flag of the config) -/
  trim : Bool
  /-- pre-sorted multi-word phrases for the tokenizer (`multiWordPhrases`) -/
  multiWordPhrases : List String
  /-- pre-sorted vocabulary for concatenated tokenization
  (`sortedConcatenatedWords`) -/
  sortedConcatWords : List String

/-! ## Integer parsing (`ToNumbersCore.parseIntegerTokens` and the
range parsers `parseWithParallelScales` / `parseIntegerTokensWithScales`) -/

/-- The scale value of a token: its mapped number if that number is in
`scaleWords` (the `num !== undefined && config.scaleWords.has(num)` test). -/
def scaleValAt (cfg : ParserConfig) (t : String) : Option Nat :=
  match List.lookup t cfg.wordToNumber with
  | some n => if cfg.scaleWords.contains n then some n else none
  | none => none

/-- The running `highestValue` of the scan (0 while no candidate). -/
def bestVal : Option (Nat × Nat) → Nat
  | some q => q.2
  | none => 0

/-- One step of the scan: replace the candidate only on a strictly
greater scale value. -/
def fhsStep (cfg : ParserConfig) (idx : Nat) (acc : Option (Nat × Nat))
    (t : String) : Option (Nat × Nat) :=
  match scaleValAt cfg t with
  | some n => if bestVal acc < n then some (idx, n) else acc
  | none => acc

/-- The scan for the highest scale word: walk the tokens left to right
(`findHighestScale`, equivalently the scan loop of
`parseWithParallelScales`); the first occurrence of the maximum wins. -/
def fhsAux (cfg : ParserConfig) :
    List String → Nat → Option (Nat × Nat) → Option (Nat × Nat)
  | [], _, acc => acc
  | t :: rest, idx, acc => fhsAux cfg rest (idx + 1) (fhsStep cfg idx acc t)

/-- Index and value of the first occurrence of the greatest scale
magnitude, `none` when no token has a positive scale value. -/
def findHighestScale (cfg : ParserConfig) (ts : List String) : Option (Nat × Nat) :=
  fhsAux cfg ts 0 none

theorem fhsAux_lt (cfg : ParserConfig) :
    ∀ (ts : List String) (idx : Nat) (acc : Option (Nat × Nat)) (i v : Nat),
      (∀ j w, acc = some (j, w) → j < idx) →
      fhsAux cfg ts idx acc = some (i, v) → i < idx + ts.length := by
  intro ts
  induction ts with
  | nil =>
    intro idx acc i v hacc h
    simpa using hacc i v h
  | cons t rest ih =>
    intro idx acc i v hacc h
    simp only [fhsAux] at h
    have step : i < (idx + 1) + rest.length := by
      apply ih (idx + 1) _ i v _ h
      intro j w hj
      unfold fhsStep at hj
      rcases heq : scaleValAt cfg t with _ | n <;> simp [heq] at hj
      · exact Nat.lt_succ_of_lt (hacc j w hj)
      · by_cases hlt : bestVal acc < n
        · simp [hlt] at hj
          omega
        · simp [hlt] at hj
          exact Nat.lt_succ_of_lt (hacc j w hj)
    simpa [Nat.add_comm, Nat.add_left_comm] using step

theorem findHighestScale_lt (cfg : ParserConfig) (ts : List String) (i v : Nat)
    (h : findHighestScale cfg ts = some (i, v)) : i < ts.length := by
  have := fhsAux_lt cfg ts 0 none i v (by intro j w hj; cases hj) h
  simpa using this

/-- Sum the mapped values of the tokens; unknown tokens contribute 0
(`sumSimpleNumbers` and the inline fast-path sums). -/
def sumSimpleNumbers (cfg : ParserConfig) (ts : List String) : Nat :=
  ts.foldl (fun s t => s + ((List.lookup t cfg.wordToNumber).getD 0)) 0

/-- Recursive-descent integer parser over a conjunction-free token list:
the body of `parseWithParallelScales` (equivalently
`parseIntegerTokensWithScales`) on a whole range.  Splits at the first
occurrence of the greatest scale magnitude; an explicit left part is the
coefficient (a parse of 0 defaults to 1), a bare implied-dual scale word
gets coefficient 2; the right part is the remainder unless it is exactly
one "one"-word after a bare scale word in a postfix-one locale (and is not
itself a scale word), in which case it is suppressed to 0. -/
def parseIntegerCore (cfg : ParserConfig) (ts : List String) : Nat :=
  match h : findHighestScale cfg ts with
  | none => sumSimpleNumbers cfg ts
  | some (i, v) =>
    let coef :=
      if i = 0 then
        if cfg.impliedDualWords.contains (ts.getD 0 "") then 2 else 1
      else
        let l := parseIntegerCore cfg (ts.take i)
        if l = 0 then 1 else l
    let right := ts.drop (i + 1)
    let rem :=
      if right.isEmpty then 0
      else if cfg.usesPostfixOne && i == 0 && right.length == 1 &&
              cfg.oneWords.contains (right.headD "") &&
              (scaleValAt cfg (right.headD "")).isNone then 0
      else parseIntegerCore cfg right
    coef * v + rem
termination_by ts.length
decreasing_by
  · have hb := findHighestScale_lt cfg ts i v h
    simp only [List.length_take]
    omega
  · have hb := findHighestScale_lt cfg ts i v h
    simp only [List.length_drop]
    omega

/-- `parseIntegerTokens`: filter out conjunction ("and") tokens, then run
the recursive-descent parser.  (The source's three code paths - no
and-words, and-words with no scale, and-words with scales - all compute
exactly this.) -/
def parseIntegerTokens (cfg : ParserConfig) (ts : List String) : Nat :=
  parseIntegerCore cfg (ts.filter (fun t => !cfg.andTexts.contains t))

/-! ## Decimal parsing (`parseDecimalTokens`) -/

/-- `isAllSingleDigits`: every token maps to a number in 0..9. -/
def isAllSingleDigits (cfg : ParserConfig) (ts : List String) : Bool :=
  ts.all (fun t =>
    match List.lookup t cfg.wordToNumber with
    | some n => decide (n ≤ 9)
    | none => false)

/-- `parseDecimalTokens`: returns (value, number of decimal places).
Digit-by-digit when the first token maps to 0 or every token is a single
digit (string concatenation of the digits is modelled by the base-10
fold); otherwise an ordinary integer parse with
`places = floor(log10 value) + 1` (0 places when the value is 0). -/
def digitTokens (cfg : ParserConfig) (ts : List String) : List Nat :=
  ts.filterMap (fun t =>
    match List.lookup t cfg.wordToNumber with
    | some n => if n ≤ 9 then some n else none
    | none => none)

def parseDecimalTokens (cfg : ParserConfig) (ts : List String) : Nat × Nat :=
  if ts.isEmpty then (0, 0)
  else
    let hasLeadingZero := List.lookup (ts.headD "") cfg.wordToNumber == some 0
    if hasLeadingZero || isAllSingleDigits cfg ts then
      let digits := digitTokens cfg ts
      (digits.foldl (fun a d => a * 10 + d) 0, digits.length)
    else
      let v := parseIntegerTokens cfg ts
      (v, if v = 0 then 0 else Nat.log 10 v + 1)

/-- `combineIntegerAndDecimal`. -/
def combineIntegerAndDecimal (ip dp places : Nat) : ℚ :=
  if dp = 0 ∨ places = 0 then (ip : ℚ)
  else (ip : ℚ) + (dp : ℚ) / (10 ^ places : ℚ)

/-! ## Plain-number parsing (`parseNumberFromTokens`) -/

/-- `findPointIndexInRange` over the whole list: `none` outright when the
conjunction marker and the decimal-point marker are the same (non-empty)
word, otherwise the index of the first decimal-point token. -/
def findPointIndex (cfg : ParserConfig) (ts : List String) : Option Nat :=
  let ambiguous :=
    match cfg.pointTexts.head?, cfg.andTexts.head? with
    | some p, some a => p != "" && a != "" && p == a
    | _, _ => false
  if ambiguous then none
  else ts.findIdx? (fun t => cfg.pointTexts.contains t)

/-- `parseNumberFromTokens`: strip a leading negation token, split at the
decimal point if any, parse the parts and combine. -/
def parseNumberFromTokens (cfg : ParserConfig) (ts : List String) : ℚ :=
  if ts.isEmpty then 0
  else
    let isNeg := cfg.minusTexts.contains (ts.headD "")
    let nts := if isNeg then ts.tail else ts
    let r : ℚ :=
      match findPointIndex cfg nts with
      | none => (parseIntegerTokens cfg nts : ℚ)
      | some pi =>
        let ip := parseIntegerTokens cfg (nts.take pi)
        let d := parseDecimalTokens cfg (nts.drop (pi + 1))
        if 0 < d.2 then combineIntegerAndDecimal ip d.1 d.2 else (ip : ℚ)
    if isNeg then -r else r

/-! ## Ordinal parsing (`detectOrdinal`, `parseOrdinalFromTokens`) -/

/-- `lastToken.endsWith(suffix)`. -/
def strEndsWith (s suf : String) : Bool :=
  List.isSuffixOf suf.toList s.toList

/-- `lastToken.slice(0, -suffix.length)`. -/
def stripSuffixStr (s suf : String) : String :=
  String.mk (s.toList.take (s.toList.length - suf.toList.length))

/-- `detectOrdinal`: (index of the ordinal token, its value).  A full
short-phrase match in the ordinal map wins; then the last token as an
ordinal word; then the last token with the ordinal suffix stripped as a
cardinal word. -/
def detectOrdinal (cfg : ParserConfig) (ts : List String) : Option (Nat × Nat) :=
  if ts.isEmpty || cfg.ordinalWords.length == 0 then none
  else
    let full :=
      if ts.length ≤ 4 then List.lookup (String.intercalate " " ts) cfg.ordinalWords
      else none
    match full with
    | some v => some (0, v)
    | none =>
      let last := ts.getLastD ""
      match List.lookup last cfg.ordinalWords with
      | some v => some (ts.length - 1, v)
      | none =>
        match cfg.ordinalSuffix with
        | some suf =>
          if suf != "" && strEndsWith last suf then
            match List.lookup (stripSuffixStr last suf) cfg.wordToNumber with
            | some v => some (ts.length - 1, v)
            | none => none
          else none
        | none => none

/-- `parseOrdinalFromTokens`.  When the detected index is 0 all three
source cases (single ordinal token, exact full-phrase match, empty
cardinal part) return the detected value directly; otherwise the tokens
before the split are parsed as a cardinal and added. -/
def parseOrdinalFromTokens (cfg : ParserConfig) (ts : List String) : Option Nat :=
  if ts.isEmpty then none
  else
    let nts := if cfg.minusTexts.contains (ts.headD "") then ts.tail else ts
    if nts.isEmpty then none
    else
      match detectOrdinal cfg nts with
      | none => none
      | some iv =>
        if iv.1 = 0 then some iv.2
        else some (parseIntegerTokens cfg (nts.take iv.1) + iv.2)

/-! ## Currency parsing (`parseCurrency`, default-options path) -/

/-- `tokens.slice(start, end)` (empty when `start ≥ end`). -/
def sliceRange (ts : List String) (s e : Nat) : List String :=
  (ts.drop s).take (e - s)

/-- `parseIntegerTokensInRange`: conjunctions in the range are filtered
and the range is parsed exactly as `parseIntegerTokens` parses the slice. -/
def parseIntegerTokensInRange (cfg : ParserConfig) (ts : List String) (s e : Nat) : Nat :=
  parseIntegerTokens cfg (sliceRange ts s e)

/-- Does the multi-word unit `parts` match `tokens` at position `i`
(entirely before `endIdx`)? -/
def unitMatchesAt (tokens : List String) (endIdx i : Nat) (parts : List String) : Bool :=
  (List.range parts.length).all (fun j =>
    i + j < endIdx && tokens.getD (i + j) "" == parts.getD j "")

/-- `findCurrencyUnitInRange`: first position in `[start, endIdx)` where a
multi-word unit (checked first) or a single-word unit matches; returns
(startIndex, endIndex) of the match. -/
def findCurrencyUnitInRange (tokens : List String) (start endIdx : Nat)
    (singles : List String) (multis : List (List String)) : Option (Nat × Nat) :=
  (List.range' start (endIdx - start)).findSome? (fun i =>
    match multis.find? (fun parts => unitMatchesAt tokens endIdx i parts) with
    | some parts => some (i, i + parts.length)
    | none =>
      if singles.contains (tokens.getD i "") then some (i, i + 1) else none)

/-- `ParseResult` (types.ts); `currencyInfo` carries
(mainAmount, fractionalAmount). -/
structure ParseResult where
  value : ℚ
  isCurrency : Bool
  isNegative : Bool
  isOrdinal : Bool
  currencyInfo : Option (Nat × Nat)
deriving DecidableEq, Repr

/-- `parseCurrency` on pre-tokenized input (the default-options fast path;
the custom-options path only swaps in equivalent unit sets): strip a
leading negation and a trailing "only" token, locate the currency units,
parse the segments with the integer parser and combine as
`main + fractional / 100`. -/
def parseCurrencyFromTokens (cfg : ParserConfig) (ts : List String) : ParseResult :=
  if ts.isEmpty then ⟨0, true, false, false, some (0, 0)⟩
  else
    let isNeg := cfg.minusTexts.contains (ts.headD "")
    let tokenStart := if isNeg then 1 else 0
    let tokenEnd :=
      if tokenStart < ts.length && cfg.onlyTexts.contains (ts.getLastD "") then
        ts.length - 1
      else ts.length
    let mainM := findCurrencyUnitInRange ts tokenStart tokenEnd
      cfg.mainUnitSingle cfg.mainUnitMulti
    let fracM := findCurrencyUnitInRange ts tokenStart tokenEnd
      cfg.fractionalUnitSingle cfg.fractionalUnitMulti
    let amounts : Nat × Nat :=
      match mainM, fracM with
      | none, none => (parseIntegerTokensInRange cfg ts tokenStart tokenEnd, 0)
      | some m, none => (parseIntegerTokensInRange cfg ts tokenStart m.1, 0)
      | none, some f => (0, parseIntegerTokensInRange cfg ts tokenStart f.1)
      | some m, some f =>
        let fracStart :=
          if m.2 < tokenEnd && cfg.andTexts.contains (ts.getD m.2 "") then m.2 + 1
          else m.2
        (parseIntegerTokensInRange cfg ts tokenStart m.1,
         parseIntegerTokensInRange cfg ts fracStart f.1)
    let value : ℚ := (amounts.1 : ℚ) + (amounts.2 : ℚ) / 100
    ⟨if isNeg then -value else value, true, isNeg, false, some amounts⟩

/-! ## Tokenizer (`tokenize` / `tokenizeWithPhrases` /
`tokenizeConcatenated`) -/

theorem dropWhile_head_false {α : Type} (p : α → Bool) :
    ∀ (l : List α) (c : α) (rest : List α),
      l.dropWhile p = c :: rest → p c = false := by
  intro l
  induction l with
  | nil => intro c rest h; simp [List.dropWhile] at h
  | cons a l ih =>
    intro c rest h
    by_cases ha : p a
    · rw [List.dropWhile_cons_of_pos ha] at h
      exact ih c rest h
    · rw [List.dropWhile_cons_of_neg ha] at h
      cases h
      simpa using ha

/-- Word-boundary test after a phrase match: end of input or whitespace. -/
def phraseBoundaryOk (rest : List Char) : Bool :=
  match rest with
  | [] => true
  | c :: _ => isWs c

/-- The phrase loop of `tokenizeWithPhrases`: first pre-sorted multi-word
phrase that matches at the current position and ends at a word boundary. -/
def firstPhraseMatch (phrases : List String) (l : List Char) : Option String :=
  phrases.find? (fun p =>
    List.isPrefixOf p.toList l && phraseBoundaryOk (l.drop p.toList.length))

theorem firstPhraseMatch_pos (phrases : List String) (c : Char)
    (rest : List Char) (p : String) (hc : isWs c = false)
    (h : firstPhraseMatch phrases (c :: rest) = some p) :
    0 < p.toList.length := by
  have hp := List.find?_some h
  rcases Nat.eq_zero_or_pos p.toList.length with h0 | h1
  · rw [List.length_eq_zero] at h0
    rw [h0] at hp
    simp [phraseBoundaryOk, hc] at hp
  · exact h1

/-- `str.split(sep)` for a single-character separator (no filtering,
exactly as in JS: `"-a-".split('-') = ["", "a", ""]`). -/
def splitChar (sep : Char) : List Char → List (List Char)
  | [] => [[]]
  | c :: rest =>
    let r := splitChar sep rest
    if c = sep then [] :: r else (c :: r.headD []) :: r.tail

/-- `word.split('-')` on a character list. -/
def splitHy (l : List Char) : List (List Char) :=
  splitChar '-' l

/-- The word-at-a-time loop of `tokenizeWithPhrases`: skip whitespace, try
a multi-word phrase, else take the run of non-whitespace characters; keep
it whole when it is a vocabulary word, split it on hyphens when it
contains one, otherwise push it as-is.  (The source's final
`word.length > 0` test always passes because the run starts at a
non-whitespace character.) -/
def tokenizeL (phrases : List String) (wordMap : List (String × Nat))
    (l : List Char) : List String :=
  match hl : l.dropWhile isWs with
    | [] => []
    | c :: rest =>
      match hm : firstPhraseMatch phrases (c :: rest) with
      | some p => p :: tokenizeL phrases wordMap ((c :: rest).drop p.toList.length)
      | none =>
        let wordChars := (c :: rest).takeWhile (fun ch => !isWs ch)
        let restAfter := (c :: rest).dropWhile (fun ch => !isWs ch)
        let word := String.mk wordChars
        if (List.lookup word wordMap).isSome then
          word :: tokenizeL phrases wordMap restAfter
        else if wordChars.contains '-' then
          ((splitHy wordChars).filter (fun q => q ≠ [])).map String.mk ++
            tokenizeL phrases wordMap restAfter
        else
          word :: tokenizeL phrases wordMap restAfter
termination_by l.length
decreasing_by
  all_goals
    have hws : isWs c = false := dropWhile_head_false isWs l c rest hl
    have hlen : (c :: rest).length ≤ l.length := by
      rw [← hl]; exact length_dropWhile_le isWs l
  · have hpos := firstPhraseMatch_pos phrases c rest p hws hm
    have h2 : ((c :: rest).drop p.toList.length).length < (c :: rest).length := by
      rw [List.length_drop]
      simp only [List.length_cons]
      omega
    omega
  all_goals
    have hdrop : (c :: rest).dropWhile (fun ch => !isWs ch) =
        rest.dropWhile (fun ch => !isWs ch) := by
      simp [List.dropWhile_cons_of_pos, hws]
    have h2 : ((c :: rest).dropWhile (fun ch => !isWs ch)).length < (c :: rest).length := by
      rw [hdrop]
      simp only [List.length_cons]
      exact Nat.lt_succ_of_le (length_dropWhile_le _ rest)
    omega

/-- `tokenize` with a word map (the only way the engine calls it): trim,
case-fold (ASCII model) unless case-sensitive, then run the phrase-aware
word scanner. -/
def tokenize (caseSensitive : Bool) (wordMap : List (String × Nat))
    (phrases : List String) (input : String) : List String :=
  let text0 := trimL input.toList
  let text := if caseSensitive then text0 else text0.map asciiLower
  tokenizeL phrases wordMap text

/-- The greedy loop of `tokenizeConcatenated`: match the first (longest,
since the list is pre-sorted by descending length) vocabulary word at the
current position, else skip one character as noise.  The source would
loop forever on an empty vocabulary word; the match is restricted to
non-empty words (locale vocabularies contain none). -/
def tokConcatAux (words : List String) : List Char → List String
  | [] => []
  | c :: rest =>
    match hw : words.find? (fun w =>
        w.toList ≠ [] && List.isPrefixOf w.toList (c :: rest)) with
    | some w => w :: tokConcatAux words ((c :: rest).drop w.toList.length)
    | none => tokConcatAux words rest
termination_by l => l.length
decreasing_by
  · have hp := List.find?_some hw
    have hne : w.toList ≠ [] := by
      intro h0
      rw [h0] at hp
      simp at hp
    have hpos : 0 < w.toList.length := List.length_pos.mpr hne
    rw [List.length_drop]
    simp only [List.length_cons]
    omega
  · simp

/-- `tokenizeConcatenated` (pre-sorted-words path used by the engine). -/
def tokenizeConcatenated (caseSensitive : Bool) (sortedWords : List String)
    (input : String) : List String :=
  let text0 := trimL input.toList
  let text := if caseSensitive then text0 else text0.map asciiLower
  tokConcatAux sortedWords text

/-! ## Facade (`ToNumbersCore.getTokens` / `convert` / `parse`) -/

/-- `caseSensitive` is a parameter of the compiled grammar; the facade
always builds it with `false`, but we keep the field. -/
structure FacadeConfig where
  cfg : ParserConfig
  caseSensitive : Bool

/-- `getTokens`: clean, then tokenize according to the script mode. -/
def getTokens (fc : FacadeConfig) (words : String) : List String :=
  let cleaned := cleanInput words
  if fc.cfg.trim then
    tokenizeConcatenated fc.caseSensitive fc.cfg.sortedConcatWords cleaned
  else
    tokenize fc.caseSensitive fc.cfg.wordToNumber fc.cfg.multiWordPhrases cleaned

/-- `isValidInput`: present, a string, and containing a character other
than space, tab, line feed, carriage return.  `none` models
`null`/`undefined` (a non-string argument behaves the same way). -/
def isValidInput : Option String → Bool
  | none => false
  | some s => s.toList.any (fun c => !isWs c)

/-- The non-currency result of `convert` on pre-tokenized input: ordinal
first, else plain number. -/
def convertTokens (cfg : ParserConfig) (tokens : List String) : ℚ :=
  if tokens.isEmpty then 0
  else
    match parseOrdinalFromTokens cfg tokens with
    | some v => (v : ℚ)
    | none => parseNumberFromTokens cfg tokens

/-- `convert(words, options)`; `Except.error` models the thrown
`Invalid Input` error. -/
def convertWords (fc : FacadeConfig) (currency : Bool) (input : Option String) :
    Except String ℚ :=
  if !isValidInput input then Except.error "Invalid Input"
  else
    let s := input.getD ""
    if currency then
      Except.ok (parseCurrencyFromTokens fc.cfg (getTokens fc s)).value
    else
      Except.ok (convertTokens fc.cfg (getTokens fc s))

/-- `parse(words, options)`. -/
def parseWords (fc : FacadeConfig) (currency : Bool) (input : Option String) :
    Except String ParseResult :=
  if !isValidInput input then Except.error "Invalid Input"
  else
    let s := input.getD ""
    if currency then Except.ok (parseCurrencyFromTokens fc.cfg (getTokens fc s))
    else
      let tokens := getTokens fc s
      if tokens.isEmpty then Except.ok ⟨0, false, false, false, none⟩
      else
        match parseOrdinalFromTokens fc.cfg tokens with
        | some v => Except.ok ⟨(v : ℚ), false, decide ((v : ℚ) < 0), true, none⟩
        | none =>
          let value := parseNumberFromTokens fc.cfg tokens
          Except.ok ⟨value, false, decide (value < 0), false, none⟩

/-! ## Grammar compiler (localeAdapter.ts)

`GrammarDescription` (`OriginalLocaleConfig`) and the functions that
derive the compiled lookup structures from it. -/

/-- `normalizeWord`: trim, and lower-case unless case-sensitive. -/
def normalizeWord (word : String) (caseSensitive : Bool) : String :=
  let t := String.mk (trimL word.toList)
  if caseSensitive then t else lowerStr t

/-- A `NumberWordMap.value`: either a single spelling or a pair of
spellings. -/
inductive WordForm where
  | one (s : String)
  | two (a b : String)
deriving DecidableEq, Repr

/-- `extractWordValue`: the array form is filtered for non-empty strings,
the string form is taken as-is. -/
def extractWordValue : WordForm → List String
  | .one s => [s]
  | .two a b => [a, b].filter (fun v => v.length > 0)

/-- One entry of `numberWordsMapping` / `exactWordsMapping`. -/
structure NumberWordEntry where
  number : Nat
  value : WordForm
  singularValue : Option String
deriving DecidableEq, Repr

/-- `PluralFormVariants` for one magnitude. -/
structure PluralForms where
  dual : Option String
  paucal : Option String
  plural : Option String
deriving DecidableEq, Repr

/-- The slice of `OriginalLocaleConfig` consumed by the map-building
functions modelled here (absent optional arrays are `[]`). -/
structure OriginalConfig where
  numberWordsMapping : List NumberWordEntry
  exactWordsMapping : List NumberWordEntry
  pluralMark : Option String
  pluralWords : List String
  /-- `pluralForms`, as `Object.entries` enumerates it (numeric keys in
  ascending order). -/
  pluralForms : List (Nat × PluralForms)
deriving Repr

/-- `Map.set`: overwrite the existing key in place or append a new one. -/
def mapSet (m : List (String × Nat)) (k : String) (v : Nat) : List (String × Nat) :=
  if m.any (fun p => p.1 == k) then
    m.map (fun p => if p.1 == k then (k, v) else p)
  else m ++ [(k, v)]

/-- The JS truthiness test + normalization applied to the optional plural
form strings (`pluralForms.dual ? normalizeWord(pluralForms.dual, cs) :
null`). -/
def normOpt (caseSensitive : Bool) : Option String → Option String
  | some s => if s != "" then some (normalizeWord s caseSensitive) else none
  | none => none

/-- `buildWordToNumberMap`: number words (with singular alternates), then
single-word exact entries (multi-word phrases are skipped), then plural
mark variants, then dual/paucal/plural morphology.  A dual form distinct
from both the paucal and the plural form maps to twice the magnitude;
a dual form equal to one of them maps to the base magnitude. -/
def buildWordToNumberMap (config : OriginalConfig) (caseSensitive : Bool) :
    List (String × Nat) :=
  let m1 := config.numberWordsMapping.foldl (fun m e =>
    let m' := (extractWordValue e.value).foldl
      (fun m w => mapSet m (normalizeWord w caseSensitive) e.number) m
    match e.singularValue with
    | some sv => mapSet m' (normalizeWord sv caseSensitive) e.number
    | none => m') []
  let m2 := config.exactWordsMapping.foldl (fun m e =>
    (extractWordValue e.value).foldl (fun m w =>
      if w.toList.contains ' ' then m
      else mapSet m (normalizeWord w caseSensitive) e.number) m) m1
  let m3 :=
    match config.pluralMark with
    | some mark =>
      if mark != "" then
        config.pluralWords.foldl (fun m w =>
          match List.lookup (normalizeWord w caseSensitive) m with
          | some base => mapSet m (normalizeWord (w ++ mark) caseSensitive) base
          | none => m) m2
      else m2
    | none => m2
  config.pluralForms.foldl (fun m nf =>
    let n := nf.1
    let dualNorm := normOpt caseSensitive nf.2.dual
    let paucalNorm := normOpt caseSensitive nf.2.paucal
    let pluralNorm := normOpt caseSensitive nf.2.plural
    let dualIsDistinct : Bool :=
      match dualNorm with
      | some d => paucalNorm != some d && pluralNorm != some d
      | none => false
    let m' :=
      match dualNorm with
      | some d => mapSet m d (if dualIsDistinct then n * 2 else n)
      | none => m
    let m'' :=
      match paucalNorm with
      | some pc => mapSet m' pc n
      | none => m'
    match pluralNorm with
    | some pl => mapSet m'' pl n
    | none => m'') m3

/-- `SCALE_VALUES` (localeAdapter.ts lines 11-27): every power of ten
from 10^2 to 10^16. -/
def SCALE_VALUES : List Nat :=
  [100, 1000, 10000, 100000, 1000000, 10000000, 100000000, 1000000000,
   10000000000, 100000000000, 1000000000000, 10000000000000,
   100000000000000, 1000000000000000, 10000000000000000]

/-- One loop iteration of `extractScaleWords` (`Set.add` modelled as
append-if-new): add the value when it is in `SCALE_VALUES`, plus any
value ≥ 100 whose half is in `SCALE_VALUES` (the JS `number / 2` is
exact, so an odd value is never in the integer set). -/
def scaleStep (acc : List Nat) (p : String × Nat) : List Nat :=
  let n := p.2
  let acc1 :=
    if SCALE_VALUES.contains n && !acc.contains n then acc ++ [n] else acc
  if n ≥ 100 && n % 2 == 0 && SCALE_VALUES.contains (n / 2) &&
      !acc1.contains n then acc1 ++ [n]
  else acc1

/-- `extractScaleWords`: fold the scale test over all mapped values. -/
def extractScaleWords (wordToNumber : List (String × Nat)) : List Nat :=
  wordToNumber.foldl scaleStep []

/-- One loop iteration of `extractImpliedDualWords`. -/
def impliedDualStep (caseSensitive : Bool) (acc : List String)
    (nf : Nat × PluralForms) : List String :=
  let dualNorm := normOpt caseSensitive nf.2.dual
  let paucalNorm := normOpt caseSensitive nf.2.paucal
  let pluralNorm := normOpt caseSensitive nf.2.plural
  match dualNorm with
  | some d =>
    if (paucalNorm == some d || pluralNorm == some d) && !acc.contains d then
      acc ++ [d]
    else acc
  | none => acc

/-- `extractImpliedDualWords`: dual forms equal to the paucal or plural
form of the same magnitude. -/
def extractImpliedDualWords (config : OriginalConfig) (caseSensitive : Bool) :
    List String :=
  config.pluralForms.foldl (impliedDualStep caseSensitive) []

/-- `extractOneWords`: single words mapping to 1. -/
def extractOneWords (wordToNumber : List (String × Nat)) : List String :=
  wordToNumber.foldl (fun acc p =>
    if p.2 == 1 && !(p.1.toList.contains ' ') && !acc.contains p.1 then
      acc ++ [p.1]
    else acc) []

/-- `detectUsesPostfixOne`: some exact-phrase entry is a two-token string
phrase whose second token is a "one"-word and whose mapped number is a
scale value. -/
def detectUsesPostfixOne (config : OriginalConfig) (scaleWords : List Nat)
    (oneWords : List String) (caseSensitive : Bool) : Bool :=
  config.exactWordsMapping.any (fun e =>
    match e.value with
    | .one s =>
      if s.toList.contains ' ' then
        let parts := splitChar ' ' s.toList
        if parts.length == 2 then
          let secondPart := normalizeWord (String.mk (parts.getD 1 [])) caseSensitive
          oneWords.contains secondPart && scaleWords.contains e.number
        else false
      else false
    | .two _ _ => false)

/-! ## Concrete grammars used in examples and witnesses -/

/-- A small English-style compiled grammar (space-delimited,
short-scale). -/
def enCfg : ParserConfig where
  wordToNumber :=
    [("zero", 0), ("one", 1), ("two", 2), ("three", 3), ("six", 6),
     ("ten", 10), ("thirty", 30), ("fifty", 50), ("sixty", 60),
     ("hundred", 100), ("thousand", 1000)]
  scaleWords := [100, 1000]
  impliedDualWords := []
  oneWords := ["one"]
  usesPostfixOne := false
  andTexts := ["and"]
  minusTexts := ["minus"]
  pointTexts := ["point"]
  onlyTexts := ["only"]
  mainUnitSingle := ["dollars", "dollar"]
  mainUnitMulti := []
  fractionalUnitSingle := ["cents", "cent"]
  fractionalUnitMulti := []
  ordinalWords := []
  ordinalSuffix := none
  trim := false
  multiWordPhrases := []
  sortedConcatWords := []

/-- The facade over `enCfg` (case-insensitive, as the engine always
builds it). -/
def enFc : FacadeConfig := ⟨enCfg, false⟩

/-- A Swahili-style grammar: `usesPostfixOne` is set ("mia moja" = 100). -/
def swCfg : ParserConfig where
  wordToNumber := [("moja", 1), ("mbili", 2), ("tatu", 3), ("mia", 100)]
  scaleWords := [100]
  impliedDualWords := []
  oneWords := ["moja"]
  usesPostfixOne := true
  andTexts := ["na"]
  minusTexts := ["hasi"]
  pointTexts := ["nukta"]
  onlyTexts := []
  mainUnitSingle := []
  mainUnitMulti := []
  fractionalUnitSingle := []
  fractionalUnitMulti := []
  ordinalWords := []
  ordinalSuffix := none
  trim := false
  multiWordPhrases := []
  sortedConcatWords := []

/-- An Italian-style grammar: "milioni" is an implied-dual scale word
(bare "milioni" = 2 000 000, "dieci milioni" = 10 000 000). -/
def itCfg : ParserConfig where
  wordToNumber := [("dieci", 10), ("uno", 1), ("milioni", 1000000)]
  scaleWords := [1000000]
  impliedDualWords := ["milioni"]
  oneWords := ["uno"]
  usesPostfixOne := false
  andTexts := ["e"]
  minusTexts := ["meno"]
  pointTexts := ["virgola"]
  onlyTexts := []
  mainUnitSingle := []
  mainUnitMulti := []
  fractionalUnitSingle := []
  fractionalUnitMulti := []
  ordinalWords := []
  ordinalSuffix := none
  trim := false
  multiWordPhrases := []
  sortedConcatWords := []

/-- A Spanish-style grammar whose conjunction marker and decimal-point
marker are the same word "y". -/
def esCfg : ParserConfig where
  wordToNumber := [("uno", 1), ("dos", 2), ("treinta", 30), ("cien", 100)]
  scaleWords := [100]
  impliedDualWords := []
  oneWords := ["uno"]
  usesPostfixOne := false
  andTexts := ["y"]
  minusTexts := ["menos"]
  pointTexts := ["y"]
  onlyTexts := []
  mainUnitSingle := ["pesos", "peso"]
  mainUnitMulti := []
  fractionalUnitSingle := ["centavos", "centavo"]
  fractionalUnitMulti := []
  ordinalWords := []
  ordinalSuffix := none
  trim := false
  multiWordPhrases := []
  sortedConcatWords := []

/-! ## Properties of `cleanInput` -/

/-- Condition on one character: a `.`/`,` must not be followed by
whitespace or the end. -/
def strayCond (c : Char) (rest : List Char) : Bool :=
  if isPunct c then
    match rest with
    | [] => false
    | d :: _ => !isWs d
  else true

/-- No `.`/`,` in the string is directly followed by whitespace or the end
of the string (the pattern the second `cleanInput` regex would delete). -/
def noStrayPunct : List Char → Bool
  | [] => true
  | c :: rest => strayCond c rest && noStrayPunct rest

theorem bool_eq_false {b : Bool} (h : ¬ b = true) : b = false := by
  cases b
  · rfl
  · exact absurd rfl h

theorem isPunct_not_ws {c : Char} (h : isPunct c = true) : isWs c = false := by
  simp only [isPunct, Bool.or_eq_true, decide_eq_true_eq] at h
  rcases h with h | h <;> subst h <;> decide

theorem strayCond_of_not_punct {c : Char} (rest : List Char)
    (hp : isPunct c = false) : strayCond c rest = true := by
  simp [strayCond, hp]

theorem strayCond_cons_of_not_ws {c d : Char} (rest : List Char)
    (hd : isWs d = false) : strayCond c (d :: rest) = true := by
  simp [strayCond, hd]

theorem noStray_tail {c : Char} {rest : List Char}
    (h : noStrayPunct (c :: rest) = true) : noStrayPunct rest = true := by
  simp only [noStrayPunct, Bool.and_eq_true] at h
  exact h.2

theorem noStray_cons {c : Char} {rest : List Char}
    (h1 : strayCond c rest = true) (h2 : noStrayPunct rest = true) :
    noStrayPunct (c :: rest) = true := by
  simp only [noStrayPunct, Bool.and_eq_true]
  exact ⟨h1, h2⟩

theorem noStray_cons_punct {c : Char} {rest : List Char}
    (h : noStrayPunct (c :: rest) = true) (hp : isPunct c = true) :
    ∃ d rest2, rest = d :: rest2 ∧ isWs d = false := by
  simp only [noStrayPunct, Bool.and_eq_true, strayCond, hp, if_true] at h
  rcases rest with _ | ⟨d, rest2⟩
  · simp at h
  · exact ⟨d, rest2, rfl, by simpa using h.1⟩

theorem noStray_dropWhile (l : List Char) (h : noStrayPunct l = true) :
    noStrayPunct (l.dropWhile isWs) = true := by
  induction l with
  | nil => simpa using h
  | cons c rest ih =>
    by_cases hc : isWs c
    · rw [List.dropWhile_cons_of_pos hc]
      exact ih (noStray_tail h)
    · rwa [List.dropWhile_cons_of_neg hc]

theorem dtws_cons_of_head (c : Char) (rest : List Char) (hc : isWs c = false) :
    dropTrailingWs (c :: rest) = c :: dropTrailingWs rest := by
  simp [dropTrailingWs, hc]

theorem dtws_cons_of_rest (c : Char) (rest : List Char)
    (hr : dropTrailingWs rest ≠ []) :
    dropTrailingWs (c :: rest) = c :: dropTrailingWs rest := by
  simp [dropTrailingWs, hr]

theorem dropTrailingWs_eq_nil (l : List Char) (h : ∀ c ∈ l, isWs c = true) :
    dropTrailingWs l = [] := by
  induction l with
  | nil => rfl
  | cons c rest ih =>
    have hr : dropTrailingWs rest = [] := ih (fun d hd => h d (List.mem_cons_of_mem c hd))
    have hc : isWs c = true := h c (List.mem_cons_self c rest)
    simp [dropTrailingWs, hr, hc]

theorem allWs_of_collapseAux_nil :
    ∀ (l : List Char) (b : Bool), collapseAux b l = [] → ∀ c ∈ l, isWs c = true := by
  intro l
  induction l with
  | nil => intro b _ c hc; simp at hc
  | cons c rest ih =>
    intro b hb d hd
    cases hc : isWs c
    · simp [collapseAux, hc] at hb
    · simp only [collapseAux, hc, if_true] at hb
      rcases List.mem_cons.mp hd with hd | hd
      · rw [hd]; exact hc
      · cases b
        · simp at hb
        · exact ih true hb d hd

theorem noStray_dropTrailingWs (l : List Char) (h : noStrayPunct l = true) :
    noStrayPunct (dropTrailingWs l) = true := by
  induction l with
  | nil => simpa using h
  | cons c rest ih =>
    have htl := ih (noStray_tail h)
    cases hp : isPunct c
    · by_cases hrn : dropTrailingWs rest = []
      · cases hc : isWs c
        · rw [dtws_cons_of_head c rest hc]
          exact noStray_cons (strayCond_of_not_punct _ hp) htl
        · simp [dropTrailingWs, hrn, hc, noStrayPunct]
      · rw [dtws_cons_of_rest c rest hrn]
        exact noStray_cons (strayCond_of_not_punct _ hp) htl
    · obtain ⟨d, rest2, hre, hdw⟩ := noStray_cons_punct h hp
      have hc : isWs c = false := isPunct_not_ws hp
      subst hre
      have hr : dropTrailingWs (d :: rest2) = d :: dropTrailingWs rest2 :=
        dtws_cons_of_head d rest2 hdw
      rw [dtws_cons_of_head c _ hc, hr]
      rw [hr] at htl
      exact noStray_cons (strayCond_cons_of_not_ws _ hdw) htl

theorem noStray_trimL (l : List Char) (h : noStrayPunct l = true) :
    noStrayPunct (trimL l) = true :=
  noStray_dropTrailingWs _ (noStray_dropWhile l h)

theorem noStray_collapseAux :
    ∀ (l : List Char) (b : Bool), noStrayPunct l = true →
      noStrayPunct (collapseAux b l) = true := by
  intro l
  induction l with
  | nil => intro b h; simpa using h
  | cons c rest ih =>
    intro b h
    have htl := noStray_tail h
    cases hc : isWs c
    · simp only [collapseAux, hc, Bool.false_eq_true, if_false]
      cases hp : isPunct c
      · exact noStray_cons (strayCond_of_not_punct _ hp) (ih false htl)
      · obtain ⟨d, rest2, hre, hdw⟩ := noStray_cons_punct h hp
        subst hre
        have hcol : collapseAux false (d :: rest2) = d :: collapseAux false rest2 := by
          simp [collapseAux, hdw]
        rw [hcol]
        have htl2 := ih false htl
        rw [hcol] at htl2
        exact noStray_cons (strayCond_cons_of_not_ws _ hdw) htl2
    · have hsp : isPunct ' ' = false := by decide
      cases b
      · simp only [collapseAux, hc, if_true]
        exact noStray_cons (strayCond_of_not_punct _ hsp) (ih true htl)
      · simp only [collapseAux, hc, if_true]
        exact ih true htl

theorem stripPunct_cons_keep {c : Char} {rest : List Char}
    (h : (isPunct c && (rest = [] || isWs (rest.headD ' '))) = false) :
    stripPunct (c :: rest) = c :: stripPunct rest := by
  simp only [stripPunct, h, Bool.false_eq_true, if_false]

theorem stripPunct_id (l : List Char) (h : noStrayPunct l = true) :
    stripPunct l = l := by
  induction l with
  | nil => rfl
  | cons c rest ih =>
    have htl := ih (noStray_tail h)
    cases hp : isPunct c
    · rw [stripPunct_cons_keep (by simp [hp]), htl]
    · obtain ⟨d, rest2, hre, hdw⟩ := noStray_cons_punct h hp
      subst hre
      rw [stripPunct_cons_keep (by simp [hp, hdw]), htl]

theorem dropTrailingWs_idem (l : List Char) :
    dropTrailingWs (dropTrailingWs l) = dropTrailingWs l := by
  induction l with
  | nil => rfl
  | cons c rest ih =>
    by_cases hrn : dropTrailingWs rest = []
    · cases hc : isWs c
      · rw [dtws_cons_of_head c rest hc, dtws_cons_of_head c _ hc, ih]
      · simp [dropTrailingWs, hrn, hc]
    · rw [dtws_cons_of_rest c rest hrn]
      have hrn2 : dropTrailingWs (dropTrailingWs rest) ≠ [] := by
        rw [ih]; exact hrn
      rw [dtws_cons_of_rest c _ hrn2, ih]

theorem dropWhile_id_of_head {l : List Char} :
    (∀ c rest, l = c :: rest → isWs c = false) → l.dropWhile isWs = l := by
  intro h
  rcases l with _ | ⟨c, rest⟩
  · rfl
  · have := h c rest rfl
    rw [List.dropWhile_cons_of_neg (by simp [this])]

theorem trimL_head (l : List Char) :
    ∀ c rest, trimL l = c :: rest → isWs c = false := by
  intro c rest h
  unfold trimL at h
  rcases hl : l.dropWhile isWs with _ | ⟨d, rest2⟩
  · rw [hl] at h; simp [dropTrailingWs] at h
  · have hd : isWs d = false := dropWhile_head_false isWs l d rest2 hl
    rw [hl, dtws_cons_of_head d rest2 hd] at h
    have : c = d := (List.cons.injEq .. ▸ h).1.symm
    rw [this]
    exact hd

theorem trimL_idem (l : List Char) : trimL (trimL l) = trimL l := by
  have h1 : (trimL l).dropWhile isWs = trimL l :=
    dropWhile_id_of_head (fun c rest h => trimL_head l c rest h)
  show dropTrailingWs ((trimL l).dropWhile isWs) = trimL l
  rw [h1]
  exact dropTrailingWs_idem (l.dropWhile isWs)

/-- The run-state collapse never emits a whitespace character first. -/
theorem collapseAux_true_head :
    ∀ (l : List Char) (d : Char) (rest2 : List Char),
      collapseAux true l = d :: rest2 → isWs d = false := by
  intro l
  induction l with
  | nil => intro d rest2 h; simp [collapseAux] at h
  | cons e rest ih =>
    intro d rest2 h
    cases he : isWs e
    · simp only [collapseAux, he, Bool.false_eq_true, if_false] at h
      have : e = d := (List.cons.injEq .. ▸ h).1
      rw [← this]
      exact he
    · simp only [collapseAux, he, if_true] at h
      exact ih d rest2 h

/-- The collapse of a right-trimmed list is right-trimmed. -/
theorem dropTrailingWs_collapseAux :
    ∀ (l : List Char) (b : Bool), dropTrailingWs l = l →
      dropTrailingWs (collapseAux b l) = collapseAux b l := by
  intro l
  induction l with
  | nil => intro b _; rfl
  | cons c rest ih =>
    intro b h
    have hrest : dropTrailingWs rest = rest := by
      by_cases hbr : dropTrailingWs rest = [] ∧ isWs c = true
      · exfalso
        simp [dropTrailingWs, hbr.1, hbr.2] at h
      · rcases Decidable.em (dropTrailingWs rest = []) with h1 | h1
        · have hc : isWs c = false := by
            rcases Bool.eq_false_or_eq_true (isWs c) with h2 | h2
            · exact absurd ⟨h1, h2⟩ hbr
            · exact h2
          rw [dtws_cons_of_head c rest hc] at h
          exact (List.cons.injEq .. ▸ h).2
        · rw [dtws_cons_of_rest c rest h1] at h
          exact (List.cons.injEq .. ▸ h).2
    cases hc : isWs c
    · have hcf := ih false hrest
      simp only [collapseAux, hc, Bool.false_eq_true, if_false]
      rw [dtws_cons_of_head c _ hc, hcf]
    · have hrne : rest ≠ [] := by
        intro h0
        rw [h0] at h
        simp [dropTrailingWs, hc] at h
      have hcol : collapseAux true rest ≠ [] := by
        intro h0
        have hall := allWs_of_collapseAux_nil rest true h0
        have hnil : dropTrailingWs rest = [] := dropTrailingWs_eq_nil rest hall
        rw [hrest] at hnil
        exact hrne hnil
      have hct := ih true hrest
      cases b
      · simp only [collapseAux, hc, if_true, Bool.false_eq_true, if_false]
        rw [dtws_cons_of_rest ' ' _ (by rw [hct]; exact hcol), hct]
      · simp only [collapseAux, hc, if_true]
        exact hct

/-- The fast-path scan finds nothing to clean in collapsed, right-trimmed,
stray-punctuation-free text. -/
theorem needsCleaning_collapseAux :
    ∀ (l : List Char), noStrayPunct l = true → dropTrailingWs l = l →
      (∀ prev, needsCleaningAux prev (collapseAux true l) = false) ∧
        needsCleaningAux false (collapseAux false l) = false := by
  intro l
  induction l with
  | nil => exact fun _ _ => ⟨fun _ => rfl, rfl⟩
  | cons c rest ih =>
    intro hns h
    have hrest : dropTrailingWs rest = rest := by
      by_cases hbr : dropTrailingWs rest = [] ∧ isWs c = true
      · exfalso
        simp [dropTrailingWs, hbr.1, hbr.2] at h
      · rcases Decidable.em (dropTrailingWs rest = []) with h1 | h1
        · have hc : isWs c = false := by
            rcases Bool.eq_false_or_eq_true (isWs c) with h2 | h2
            · exact absurd ⟨h1, h2⟩ hbr
            · exact h2
          rw [dtws_cons_of_head c rest hc] at h
          exact (List.cons.injEq .. ▸ h).2
        · rw [dtws_cons_of_rest c rest h1] at h
          exact (List.cons.injEq .. ▸ h).2
    have ihr := ih (noStray_tail hns) hrest
    cases hc : isWs c
    · have hcsp : c ≠ ' ' := by
        intro h0
        rw [h0] at hc
        simp [isWs] at hc
      have main : ∀ prev, needsCleaningAux prev (c :: collapseAux false rest) = false := by
        intro prev
        simp only [needsCleaningAux, hcsp, if_false]
        cases hp : isPunct c
        · simp only [hp, Bool.false_and, Bool.false_eq_true, if_false]
          exact ihr.2
        · obtain ⟨d, rest2, hre, hdw⟩ := noStray_cons_punct hns hp
          have hd' : d ≠ ' ' := by
            intro h0
            rw [h0] at hdw
            simp [isWs] at hdw
          subst hre
          have hcol : collapseAux false (d :: rest2) = d :: collapseAux false rest2 := by
            simp [collapseAux, hdw]
          rw [hcol]
          have hcond : (true &&
              (decide (d :: collapseAux false rest2 = []) ||
                decide ((d :: collapseAux false rest2).headD ' ' = ' '))) = false := by
            simp [hd']
          rw [hcond]
          simp only [Bool.false_eq_true, if_false]
          have key := ihr.2
          rw [hcol] at key
          exact key
      constructor
      · intro prev
        simp only [collapseAux, hc, Bool.false_eq_true, if_false]
        exact main prev
      · simp only [collapseAux, hc, Bool.false_eq_true, if_false]
        exact main false
    · constructor
      · intro prev
        simp only [collapseAux, hc, if_true]
        exact ihr.1 prev
      · simp only [collapseAux, hc, if_true, Bool.false_eq_true, if_false]
        rcases hco : collapseAux true rest with _ | ⟨d, rest2⟩
        · simp [needsCleaningAux]
        · have hd := collapseAux_true_head rest d rest2 hco
          have hd' : d ≠ ' ' := by
            intro h0
            rw [h0] at hd
            simp [isWs] at hd
          simp only [needsCleaningAux, hd', if_false]
          have key := ihr.1 true
          rw [hco] at key
          simp only [needsCleaningAux, hd', if_false] at key
          exact key

theorem toList_mk (l : List Char) : (String.mk l).toList = l := rfl

/-- `cleanInput` is idempotent on character lists free of stray
punctuation. -/
theorem cleanInputL_idem (l : List Char) (h : noStrayPunct l = true) :
    cleanInputL (cleanInputL l) = cleanInputL l := by
  have hns_t : noStrayPunct (trimL l) = true := noStray_trimL l h
  have hdt : dropTrailingWs (trimL l) = trimL l := dropTrailingWs_idem (l.dropWhile isWs)
  by_cases hnc : needsCleaning (trimL l) = true
  · have e1 : cleanInputL l = stripPunct (collapseWs (trimL l)) := by
      simp [cleanInputL, hnc]
    have hns_c : noStrayPunct (collapseWs (trimL l)) = true :=
      noStray_collapseAux (trimL l) false hns_t
    have e2 : stripPunct (collapseWs (trimL l)) = collapseWs (trimL l) :=
      stripPunct_id _ hns_c
    rw [e1, e2]
    have htr : trimL (collapseWs (trimL l)) = collapseWs (trimL l) := by
      have hdw : (collapseWs (trimL l)).dropWhile isWs = collapseWs (trimL l) := by
        apply dropWhile_id_of_head
        intro c rest hcr
        cases ht : trimL l with
        | nil => rw [ht] at hcr; simp [collapseWs, collapseAux] at hcr
        | cons c0 t0 =>
          have hc0 : isWs c0 = false := trimL_head l c0 t0 ht
          rw [ht] at hcr
          simp only [collapseWs, collapseAux, hc0, Bool.false_eq_true, if_false] at hcr
          have : c0 = c := (List.cons.injEq .. ▸ hcr).1
          rw [← this]
          exact hc0
      show dropTrailingWs ((collapseWs (trimL l)).dropWhile isWs) = collapseWs (trimL l)
      rw [hdw]
      exact dropTrailingWs_collapseAux (trimL l) false hdt
    have hnc2 : needsCleaning (collapseWs (trimL l)) = false :=
      (needsCleaning_collapseAux (trimL l) hns_t hdt).2
    simp [cleanInputL, htr, hnc2]
  · have hnc' : needsCleaning (trimL l) = false := bool_eq_false hnc
    have e1 : cleanInputL l = trimL l := by
      simp [cleanInputL, hnc']
    rw [e1]
    have htr : trimL (trimL l) = trimL l := trimL_idem l
    simp [cleanInputL, htr, hnc']

/-- C8, corrected: stripping a `.`/`,` that sits before whitespace or the
end can leave a double or trailing space behind, so cleaning is NOT
idempotent in general (`cleanInput "one ." = "one "` but
`cleanInput "one " = "one"`); it IS idempotent for every input in which
no `.`/`,` is directly followed by whitespace or the end of the string. -/
theorem claim_C8_clean_idempotent (s : String)
    (h : noStrayPunct s.toList = true) :
    cleanInput (cleanInput s) = cleanInput s := by
  show String.mk (cleanInputL (String.toList (String.mk (cleanInputL s.toList)))) =
    String.mk (cleanInputL s.toList)
  rw [toList_mk]
  rw [cleanInputL_idem s.toList h]

/-- C8 counterexample: the claim `clean(clean(s)) = clean(s)` fails at the
concrete input `"one ."`: cleaning once gives `"one "` (the regex removes
the dot but not the space before it), cleaning twice gives `"one"`. -/
theorem claim_C8_counterexample :
    cleanInput (cleanInput "one .") ≠ cleanInput "one ." ∧
      cleanInput "one ." = "one " ∧ cleanInput (cleanInput "one .") = "one" := by
  refine ⟨?_, ?_, ?_⟩ <;> decide

/-- C8 witness: the amended idempotence applied to a concrete input with
collapsible whitespace and no stray punctuation. -/
theorem claim_C8_witness :
    noStrayPunct ("one   two".toList) = true ∧
      cleanInput (cleanInput "one   two") = cleanInput "one   two" :=
  ⟨by decide, claim_C8_clean_idempotent "one   two" (by decide)⟩

/-! ## Claim C4: decimal divergence -/

theorem foldl_digits_shift (ds : List Nat) :
    ∀ a : Nat, ds.foldl (fun a d => a * 10 + d) a =
      a * 10 ^ ds.length + ds.foldl (fun a d => a * 10 + d) 0 := by
  induction ds with
  | nil => intro a; simp
  | cons d ds ih =>
    intro a
    simp only [List.foldl_cons, List.length_cons]
    rw [ih (a * 10 + d), ih (0 * 10 + d)]
    ring

theorem digits_fraction (ds : List Nat) :
    ((ds.foldl (fun a d => a * 10 + d) 0 : Nat) : ℚ) / 10 ^ ds.length =
      ds.foldr (fun (d : Nat) (acc : ℚ) => (d + acc) / 10) 0 := by
  induction ds with
  | nil => simp
  | cons d ds ih =>
    simp only [List.foldl_cons, List.foldr_cons, List.length_cons]
    have e : (0 : Nat) * 10 + d = d := by omega
    rw [e, foldl_digits_shift ds d, ← ih]
    have h10 : (10 : ℚ) ^ ds.length ≠ 0 := by positivity
    push_cast
    rw [pow_succ, ← div_div, add_div, mul_div_cancel_right₀ _ h10]

unseal parseIntegerCore tokenizeL Nat.log in
/-- C4: decimal parsing diverges on two policies.  If the first decimal
token maps to 0 or every token maps to a single digit 0-9, the fraction is
built digit by digit - the digit count is the number of digit tokens
(leading zeros preserved) and the resulting fraction is the positional
value Σ dᵢ/10ⁱ⁺¹ of the digit sequence.  Otherwise the tokens are parsed
as an ordinary integer phrase with place count floor(log10 value) + 1.
In particular `convert "zero point zero six three" = 0.063` and
`convert "point sixty three" = 0.63`. -/
theorem claim_C4_decimal_divergence (cfg : ParserConfig) (ts : List String)
    (hne : ts ≠ []) :
    ((List.lookup (ts.headD "") cfg.wordToNumber = some 0 ∨
        isAllSingleDigits cfg ts = true) →
      parseDecimalTokens cfg ts =
        ((digitTokens cfg ts).foldl (fun a d => a * 10 + d) 0,
          (digitTokens cfg ts).length) ∧
      (((parseDecimalTokens cfg ts).1 : ℚ) / 10 ^ (parseDecimalTokens cfg ts).2 =
        (digitTokens cfg ts).foldr (fun (d : Nat) (acc : ℚ) => (d + acc) / 10) 0)) ∧
    ((List.lookup (ts.headD "") cfg.wordToNumber ≠ some 0 ∧
        isAllSingleDigits cfg ts = false) →
      parseDecimalTokens cfg ts =
        (parseIntegerTokens cfg ts,
          if parseIntegerTokens cfg ts = 0 then 0
          else Nat.log 10 (parseIntegerTokens cfg ts) + 1)) ∧
    convertWords enFc false (some "zero point zero six three") =
      Except.ok ((63 : ℚ) / 1000) ∧
    convertWords enFc false (some "point sixty three") =
      Except.ok ((63 : ℚ) / 100) := by
  refine ⟨?_, ?_, ?_, ?_⟩
  case refine_3 =>
    show Except.ok (combineIntegerAndDecimal 0 63 3) = Except.ok ((63 : ℚ) / 1000)
    norm_num [combineIntegerAndDecimal]
  case refine_4 =>
    show Except.ok (combineIntegerAndDecimal 0 63 2) = Except.ok ((63 : ℚ) / 100)
    norm_num [combineIntegerAndDecimal]
  · intro hdig
    have hcond : ((List.lookup (ts.headD "") cfg.wordToNumber == some 0) ||
        isAllSingleDigits cfg ts) = true := by
      rcases hdig with h | h
      · rw [Bool.or_eq_true]
        exact Or.inl (beq_iff_eq.mpr h)
      · rw [Bool.or_eq_true]
        exact Or.inr h
    have he : ts.isEmpty = false := by
      cases ts
      · exact absurd rfl hne
      · rfl
    have hpd : parseDecimalTokens cfg ts =
        ((digitTokens cfg ts).foldl (fun a d => a * 10 + d) 0,
          (digitTokens cfg ts).length) := by
      simp only [parseDecimalTokens, he, Bool.false_eq_true, if_false, hcond, if_true]
    refine ⟨hpd, ?_⟩
    rw [hpd]
    exact digits_fraction (digitTokens cfg ts)
  · intro hint
    have hz : (List.lookup (ts.headD "") cfg.wordToNumber == some 0) = false :=
      beq_eq_false_iff_ne.mpr hint.1
    have hcond : ((List.lookup (ts.headD "") cfg.wordToNumber == some 0) ||
        isAllSingleDigits cfg ts) = false := by
      rw [hz, hint.2]
      rfl
    have he : ts.isEmpty = false := by
      cases ts
      · exact absurd rfl hne
      · rfl
    simp only [parseDecimalTokens, he, Bool.false_eq_true, if_false, hcond]

/-- C4 witness: the theorem applied to the digit sequence
"zero six three" in the small English grammar (digit path: value 63 over
3 places, i.e. 0.063). -/
theorem claim_C4_witness :
    (["zero", "six", "three"] : List String) ≠ [] ∧
      (List.lookup ((["zero", "six", "three"] : List String).headD "")
          enCfg.wordToNumber = some 0 ∨
        isAllSingleDigits enCfg ["zero", "six", "three"] = true) ∧
      parseDecimalTokens enCfg ["zero", "six", "three"] = (63, 3) := by
  have h := claim_C4_decimal_divergence enCfg ["zero", "six", "three"] (by decide)
  refine ⟨by decide, by decide, ?_⟩
  have h1 := (h.1 (by decide)).1
  rw [h1]
  decide

/-! ## Claim C5: currency combination -/

set_option maxRecDepth 4000 in
unseal parseIntegerCore tokenizeL in
/-- C5: currency parsing strips a leading negation token and a trailing
"only" token, parses the segment before the main-unit match and the
segment between the main-unit match and the fractional-unit match
(skipping one optional conjunction token) with the integer algorithm, and
combines them as `main + fractional / 10^2` (the precision is the default
2); when no currency unit occurs the whole range is parsed as a plain
integer into the main amount.  E.g. "fifty two dollars and thirty cents"
parses to value 52.30 with mainAmount 52 and fractionalAmount 30. -/
theorem claim_C5_currency_combination (cfg : ParserConfig) (ts : List String)
    (hne : ts ≠ []) :
    (let isNeg := cfg.minusTexts.contains (ts.headD "")
     let tokenStart := if isNeg then 1 else 0
     let tokenEnd :=
       if tokenStart < ts.length && cfg.onlyTexts.contains (ts.getLastD "") then
         ts.length - 1
       else ts.length
     let mainM := findCurrencyUnitInRange ts tokenStart tokenEnd
       cfg.mainUnitSingle cfg.mainUnitMulti
     let fracM := findCurrencyUnitInRange ts tokenStart tokenEnd
       cfg.fractionalUnitSingle cfg.fractionalUnitMulti
     let r := parseCurrencyFromTokens cfg ts
     (mainM = none → fracM = none →
       r.currencyInfo =
         some (parseIntegerTokens cfg (sliceRange ts tokenStart tokenEnd), 0)) ∧
     (∀ m f, mainM = some m → fracM = some f →
       r.currencyInfo = some
         (parseIntegerTokens cfg (sliceRange ts tokenStart m.1),
          parseIntegerTokens cfg (sliceRange ts
            (if m.2 < tokenEnd && cfg.andTexts.contains (ts.getD m.2 "") then m.2 + 1
             else m.2) f.1))) ∧
     (∀ m f, r.currencyInfo = some (m, f) →
       r.value =
         if r.isNegative then -((m : ℚ) + (f : ℚ) / 10 ^ 2)
         else (m : ℚ) + (f : ℚ) / 10 ^ 2)) ∧
    parseWords enFc true (some "fifty two dollars and thirty cents") =
      Except.ok ⟨(523 : ℚ) / 10, true, false, false, some (52, 30)⟩ := by
  have he : ts.isEmpty = false := by
    cases ts
    · exact absurd rfl hne
    · rfl
  refine ⟨⟨?_, ?_, ?_⟩, ?_⟩
  · intro hmain hfrac
    simp only [parseCurrencyFromTokens, he, Bool.false_eq_true, if_false,
      hmain, hfrac, parseIntegerTokensInRange]
  · intro m f hmain hfrac
    simp only [parseCurrencyFromTokens, he, Bool.false_eq_true, if_false,
      hmain, hfrac, parseIntegerTokensInRange]
  · intro m f hinfo
    simp only [parseCurrencyFromTokens, he, Bool.false_eq_true, if_false] at hinfo ⊢
    rcases hm : findCurrencyUnitInRange ts
        (if cfg.minusTexts.contains (ts.headD "") = true then 1 else 0)
        (if ((if cfg.minusTexts.contains (ts.headD "") = true then 1 else 0) <
              ts.length &&
            cfg.onlyTexts.contains (ts.getLastD "")) = true then
          ts.length - 1
         else ts.length) cfg.mainUnitSingle cfg.mainUnitMulti with _ | m' <;>
      rcases hf : findCurrencyUnitInRange ts
        (if cfg.minusTexts.contains (ts.headD "") = true then 1 else 0)
        (if ((if cfg.minusTexts.contains (ts.headD "") = true then 1 else 0) <
              ts.length &&
            cfg.onlyTexts.contains (ts.getLastD "")) = true then
          ts.length - 1
         else ts.length) cfg.fractionalUnitSingle cfg.fractionalUnitMulti with _ | f' <;>
      simp only [hm, hf] at hinfo ⊢ <;>
      [skip; skip; skip; skip] <;>
      · obtain ⟨h1, h2⟩ := Prod.mk.injEq .. ▸ Option.some.injEq .. ▸ hinfo
        subst h1
        subst h2
        cases hneg : cfg.minusTexts.contains (ts.headD "") <;>
          simp [hneg] <;> norm_num
  · show Except.ok (parseCurrencyFromTokens enCfg
      (getTokens enFc "fifty two dollars and thirty cents")) =
      Except.ok ⟨(523 : ℚ) / 10, true, false, false, some (52, 30)⟩
    have ht : getTokens enFc "fifty two dollars and thirty cents" =
        ["fifty", "two", "dollars", "and", "thirty", "cents"] := rfl
    rw [ht]
    show Except.ok (⟨((52 : Nat) : ℚ) + ((30 : Nat) : ℚ) / 100, true, false, false,
      some (52, 30)⟩ : ParseResult) = _
    have hv : ((52 : Nat) : ℚ) + ((30 : Nat) : ℚ) / 100 = (523 : ℚ) / 10 := by
      norm_num
    rw [hv]

unseal parseIntegerCore in
/-- C5 witness: the theorem applied to the concrete token sequence
"fifty two dollars and thirty cents". -/
theorem claim_C5_witness :
    ((["fifty", "two", "dollars", "and", "thirty", "cents"] : List String) ≠ []) ∧
      (parseCurrencyFromTokens enCfg
          ["fifty", "two", "dollars", "and", "thirty", "cents"]).currencyInfo =
        some (52, 30) ∧
      (parseCurrencyFromTokens enCfg
          ["fifty", "two", "dollars", "and", "thirty", "cents"]).value =
        (523 : ℚ) / 10 := by
  have h := claim_C5_currency_combination enCfg
    ["fifty", "two", "dollars", "and", "thirty", "cents"] (by decide)
  have hinfo := h.1.2.1 (2, 3) (5, 6) rfl rfl
  have hinfo' : (parseCurrencyFromTokens enCfg
      ["fifty", "two", "dollars", "and", "thirty", "cents"]).currencyInfo =
      some (52, 30) := by
    rw [hinfo]
    rfl
  have hval := h.1.2.2 52 30 hinfo'
  have hneg : (parseCurrencyFromTokens enCfg
      ["fifty", "two", "dollars", "and", "thirty", "cents"]).isNegative = false := rfl
  refine ⟨by decide, hinfo', ?_⟩
  rw [hval, hneg]
  norm_num

/-! ## Claim C6: ambiguous conjunction / decimal-point marker -/

unseal parseIntegerCore tokenizeL in
/-- C6: when the conjunction marker and the decimal-point marker are the
same (non-empty) word, plain-number parsing never treats that marker as a
decimal point: `findPointIndexInRange` reports no decimal point, so the
whole phrase (after an optional negation token) is parsed by the integer
algorithm, which drops the marker as a conjunction.  Only currency
parsing uses the shared marker as a separator, as in
"dos pesos y treinta centavos" → (2, 30) while the plain phrase
"dos y treinta" parses to the integer 32. -/
theorem claim_C6_ambiguous_marker (cfg : ParserConfig) (p : String)
    (ts : List String) (hp : cfg.pointTexts.head? = some p)
    (ha : cfg.andTexts.head? = some p) (hne : p ≠ "") :
    (findPointIndex cfg ts = none ∧
      parseNumberFromTokens cfg ts =
        (if ts.isEmpty then 0
         else if cfg.minusTexts.contains (ts.headD "") then
           -(parseIntegerTokens cfg ts.tail : ℚ)
         else (parseIntegerTokens cfg ts : ℚ))) ∧
    (parseCurrencyFromTokens esCfg
        ["dos", "pesos", "y", "treinta", "centavos"]).currencyInfo =
      some (2, 30) ∧
    convertWords ⟨esCfg, false⟩ false (some "dos y treinta") =
      Except.ok (32 : ℚ) := by
  have hambig : ∀ l : List String, findPointIndex cfg l = none := by
    intro l
    simp [findPointIndex, hp, ha, hne]
  refine ⟨⟨hambig ts, ?_⟩, ?_, ?_⟩
  · cases ts with
    | nil => simp [parseNumberFromTokens]
    | cons t rest =>
      simp only [parseNumberFromTokens, List.isEmpty_cons, Bool.false_eq_true,
        if_false, hambig]
      cases hn : cfg.minusTexts.contains ((t :: rest).headD "") <;> simp [hn]
  · rfl
  · show Except.ok ((32 : Nat) : ℚ) = Except.ok (32 : ℚ)
    norm_num

unseal parseIntegerCore in
/-- C6 witness: the theorem applied to the Spanish-style grammar with
marker "y" and the phrase "dos y treinta". -/
theorem claim_C6_witness :
    esCfg.pointTexts.head? = some "y" ∧ esCfg.andTexts.head? = some "y" ∧
      ("y" : String) ≠ "" ∧
      parseNumberFromTokens esCfg ["dos", "y", "treinta"] = (32 : ℚ) := by
  have h := claim_C6_ambiguous_marker esCfg "y" ["dos", "y", "treinta"] rfl rfl
    (by decide)
  refine ⟨rfl, rfl, by decide, ?_⟩
  rw [h.1.2]
  show ((32 : Nat) : ℚ) = (32 : ℚ)
  norm_num

/-! ## Claim C10: `isNegative` semantics -/

unseal parseIntegerCore tokenizeL in
/-- C10: every non-currency `parse` result satisfies
`isNegative = (value < 0)`; in particular a negation word followed by
words summing to zero gives value 0 with `isNegative = false`.  Currency
parsing, by contrast, sets `isNegative` from the presence of the negation
token itself: "minus zero" in currency mode reports `isNegative = true`
even though the value is 0. -/
theorem claim_C10_isNegative (fc : FacadeConfig) (s : String) (r : ParseResult)
    (h : parseWords fc false (some s) = Except.ok r) :
    r.isNegative = decide (r.value < 0) ∧
    (∀ ts : List String, ts ≠ [] →
      (parseCurrencyFromTokens fc.cfg ts).isNegative =
        fc.cfg.minusTexts.contains (ts.headD "")) ∧
    parseWords enFc false (some "minus zero") =
      Except.ok ⟨0, false, false, false, none⟩ ∧
    parseWords enFc true (some "minus zero") =
      Except.ok ⟨0, true, true, false, some (0, 0)⟩ := by
  refine ⟨?_, ?_, ?_, ?_⟩
  · rw [parseWords] at h
    split at h
    · exact absurd h (by simp)
    · simp only [Option.getD_some, Bool.false_eq_true, if_false] at h
      split at h
      · injection h with h'
        subst h'
        decide
      · split at h
        · injection h with h'
          subst h'
          rfl
        · injection h with h'
          subst h'
          rfl
  · intro ts hne
    have he : ts.isEmpty = false := by
      cases ts
      · exact absurd rfl hne
      · rfl
    simp only [parseCurrencyFromTokens, he, Bool.false_eq_true, if_false]
  · show Except.ok (⟨-((0 : Nat) : ℚ), false, decide (-((0 : Nat) : ℚ) < 0), false,
      none⟩ : ParseResult) = Except.ok ⟨0, false, false, false, none⟩
    have hz : -((0 : Nat) : ℚ) = 0 := by norm_num
    rw [hz]
    norm_num
  · show Except.ok (⟨-(((0 : Nat) : ℚ) + ((0 : Nat) : ℚ) / 100), true, true, false,
      some (0, 0)⟩ : ParseResult) = Except.ok ⟨0, true, true, false, some (0, 0)⟩
    have hz : -(((0 : Nat) : ℚ) + ((0 : Nat) : ℚ) / 100) = 0 := by norm_num
    rw [hz]

unseal parseIntegerCore tokenizeL in
/-- C10 witness: the theorem applied to the parse of "minus zero", whose
result has value 0 and `isNegative = false`. -/
theorem claim_C10_witness :
    parseWords enFc false (some "minus zero") =
      Except.ok ⟨0, false, false, false, none⟩ ∧
      (false : Bool) = decide ((0 : ℚ) < 0) := by
  have h := claim_C10_isNegative enFc "minus zero"
    ⟨0, false, false, false, none⟩ ?_
  · refine ⟨h.2.2.1, ?_⟩
    have := h.1
    simpa using this
  · exact (claim_C10_isNegative enFc "zero" ⟨0, false, false, false, none⟩
      (by rfl)).2.2.1

/-! ## Claim C9: raises-iff and noise tolerance -/

/-- A token the grammar does not recognize in any role relevant to
plain-number conversion. -/
def unknownTok (cfg : ParserConfig) (t : String) : Prop :=
  List.lookup t cfg.wordToNumber = none ∧
  List.lookup t cfg.ordinalWords = none ∧
  cfg.minusTexts.contains t = false ∧
  cfg.pointTexts.contains t = false

instance (cfg : ParserConfig) (t : String) : Decidable (unknownTok cfg t) := by
  unfold unknownTok
  infer_instance

theorem getLastD_mem : ∀ (ts : List String) (d : String), ts ≠ [] →
    ts.getLastD d ∈ ts := by
  intro ts
  induction ts with
  | nil => intro d h; exact absurd rfl h
  | cons t rest ih =>
    intro d _
    cases hr : rest with
    | nil => simp
    | cons a as =>
      have := ih t (by simp [hr])
      rw [hr] at this
      simpa [hr] using Or.inr this

theorem fhsAux_unknown (cfg : ParserConfig) (ts : List String)
    (h : ∀ t ∈ ts, List.lookup t cfg.wordToNumber = none) :
    ∀ idx : Nat, fhsAux cfg ts idx none = none := by
  induction ts with
  | nil => intro idx; rfl
  | cons t rest ih =>
    intro idx
    have hstep : fhsStep cfg idx none t = none := by
      simp [fhsStep, scaleValAt, h t (List.mem_cons_self t rest)]
    simp only [fhsAux, hstep]
    exact ih (fun u hu => h u (List.mem_cons_of_mem t hu)) (idx + 1)

theorem sumSimple_unknown (cfg : ParserConfig) (ts : List String)
    (h : ∀ t ∈ ts, List.lookup t cfg.wordToNumber = none) :
    sumSimpleNumbers cfg ts = 0 := by
  induction ts with
  | nil => rfl
  | cons t rest ih =>
    have ht := h t (List.mem_cons_self t rest)
    simp only [sumSimpleNumbers, List.foldl_cons, ht, Option.getD_none, Nat.add_zero]
    exact ih (fun u hu => h u (List.mem_cons_of_mem t hu))

theorem parseIntegerCore_of_none (cfg : ParserConfig) (ts : List String)
    (h : findHighestScale cfg ts = none) :
    parseIntegerCore cfg ts = sumSimpleNumbers cfg ts := by
  rw [parseIntegerCore]
  split
  · rfl
  · next i v heq =>
    rw [h] at heq
    cases heq

theorem parseIntegerTokens_unknown (cfg : ParserConfig) (ts : List String)
    (h : ∀ t ∈ ts, List.lookup t cfg.wordToNumber = none) :
    parseIntegerTokens cfg ts = 0 := by
  unfold parseIntegerTokens
  have hf : ∀ t ∈ ts.filter (fun t => !cfg.andTexts.contains t),
      List.lookup t cfg.wordToNumber = none :=
    fun t ht => h t (List.mem_of_mem_filter ht)
  have hfhs : findHighestScale cfg (ts.filter (fun t => !cfg.andTexts.contains t)) = none :=
    fhsAux_unknown cfg _ hf 0
  rw [parseIntegerCore_of_none cfg _ hfhs]
  exact sumSimple_unknown cfg _ hf

theorem detectOrdinal_none_of_unknown (cfg : ParserConfig) (ts : List String)
    (hne : ts ≠ [])
    (hunk : ∀ t ∈ ts, unknownTok cfg t)
    (hjoin : List.lookup (String.intercalate " " ts) cfg.ordinalWords = none)
    (hsuf : ∀ suf, cfg.ordinalSuffix = some suf →
      List.lookup (stripSuffixStr (ts.getLastD "") suf) cfg.wordToNumber = none) :
    detectOrdinal cfg ts = none := by
  have hlast := hunk (ts.getLastD "") (getLastD_mem ts "" hne)
  unfold detectOrdinal
  cases hcond : (ts.isEmpty || cfg.ordinalWords.length == 0)
  · simp only [Bool.false_eq_true, if_false]
    have hfull : (if ts.length ≤ 4 then
        List.lookup (String.intercalate " " ts) cfg.ordinalWords
        else none) = none := by
      by_cases h4 : ts.length ≤ 4
      · simp [h4, hjoin]
      · simp [h4]
    rw [hfull]
    rw [hlast.2.1]
    cases hos : cfg.ordinalSuffix with
    | none => rfl
    | some suf =>
      by_cases hcnd : (suf != "" && strEndsWith (ts.getLastD "") suf) = true
      · simp only [hcnd, if_true]
        rw [hsuf suf hos]
      · have : (suf != "" && strEndsWith (ts.getLastD "") suf) = false :=
          bool_eq_false hcnd
        simp only [this, Bool.false_eq_true, if_false]
  · simp only [if_true]

theorem parseOrdinal_none_of_unknown (cfg : ParserConfig) (ts : List String)
    (hunk : ∀ t ∈ ts, unknownTok cfg t)
    (hjoin : List.lookup (String.intercalate " " ts) cfg.ordinalWords = none)
    (hsuf : ∀ suf, cfg.ordinalSuffix = some suf →
      List.lookup (stripSuffixStr (ts.getLastD "") suf) cfg.wordToNumber = none) :
    parseOrdinalFromTokens cfg ts = none := by
  cases ts with
  | nil => rfl
  | cons t rest =>
    have hmt : cfg.minusTexts.contains ((t :: rest).headD "") = false :=
      (hunk t (List.mem_cons_self t rest)).2.2.1
    unfold parseOrdinalFromTokens
    simp only [List.isEmpty_cons, Bool.false_eq_true, if_false, hmt]
    rw [detectOrdinal_none_of_unknown cfg (t :: rest) (by simp) hunk hjoin hsuf]

theorem findPointIndex_none_of_unknown (cfg : ParserConfig) (ts : List String)
    (hunk : ∀ t ∈ ts, unknownTok cfg t) :
    findPointIndex cfg ts = none := by
  have hidx : ts.findIdx? (fun t => cfg.pointTexts.contains t) = none := by
    rw [List.findIdx?_eq_none_iff]
    exact fun t ht => (hunk t ht).2.2.2
  unfold findPointIndex
  split
  · next p a hp ha =>
    by_cases hb : (p != "" && a != "" && p == a) = true
    · simp [hb]
    · simp only [bool_eq_false hb, Bool.false_eq_true, if_false]
      exact hidx
  · simpa using hidx

theorem parseNumber_zero_of_unknown (cfg : ParserConfig) (ts : List String)
    (hunk : ∀ t ∈ ts, unknownTok cfg t) :
    parseNumberFromTokens cfg ts = 0 := by
  cases ts with
  | nil => rfl
  | cons t rest =>
    have hmt : cfg.minusTexts.contains ((t :: rest).headD "") = false :=
      (hunk t (List.mem_cons_self t rest)).2.2.1
    unfold parseNumberFromTokens
    simp only [List.isEmpty_cons, Bool.false_eq_true, if_false, hmt]
    rw [findPointIndex_none_of_unknown cfg (t :: rest) hunk]
    simp only [parseIntegerTokens_unknown cfg (t :: rest)
      (fun u hu => (hunk u hu).1), Nat.cast_zero]

/-- C9: `convert` (and `parse`, which validates identically) throws the
"Invalid Input" error exactly when the argument is absent
(null/undefined) or contains no non-whitespace character; every other
string returns normally.  Unrecognized tokens contribute zero, so when
every token of the input is unknown to the grammar the result is the
value 0, not an error. -/
theorem claim_C9_raises_iff (fc : FacadeConfig) (currency : Bool)
    (inp : Option String) :
    ((∃ e, convertWords fc currency inp = Except.error e) ↔
      (inp = none ∨ ∃ s, inp = some s ∧ ∀ c ∈ s.toList, isWs c = true)) ∧
    (∀ s, inp = some s →
      isValidInput (some s) = true →
      (∀ t ∈ getTokens fc s, unknownTok fc.cfg t) →
      List.lookup (String.intercalate " " (getTokens fc s))
        fc.cfg.ordinalWords = none →
      (∀ suf, fc.cfg.ordinalSuffix = some suf →
        List.lookup (stripSuffixStr ((getTokens fc s).getLastD "") suf)
          fc.cfg.wordToNumber = none) →
      currency = false →
      convertWords fc currency inp = Except.ok 0) := by
  constructor
  · constructor
    · rintro ⟨e, he⟩
      unfold convertWords at he
      split at he
      · next hval =>
        cases inp with
        | none => exact Or.inl rfl
        | some s =>
          refine Or.inr ⟨s, rfl, ?_⟩
          intro c hc
          have : isValidInput (some s) = false := by
            cases hv : isValidInput (some s)
            · rfl
            · rw [hv] at hval; simp at hval
          unfold isValidInput at this
          rw [List.any_eq_false] at this
          have := this c hc
          simpa using this
      · have he2 : (if currency = true then
            Except.ok (parseCurrencyFromTokens fc.cfg (getTokens fc (inp.getD ""))).value
          else Except.ok (convertTokens fc.cfg (getTokens fc (inp.getD "")))) =
            Except.error e := he
        cases currency <;> simp at he2
    · intro hinv
      have hval : isValidInput inp = false := by
        rcases hinv with h | ⟨s, hs, hall⟩
        · rw [h]; rfl
        · rw [hs]
          unfold isValidInput
          rw [List.any_eq_false]
          intro c hc
          simp [hall c hc]
      refine ⟨"Invalid Input", ?_⟩
      unfold convertWords
      rw [hval]
      rfl
  · intro s hs hval hunk hjoin hsuf hcur
    subst hs
    subst hcur
    unfold convertWords
    rw [hval]
    simp only [Bool.not_true, Bool.false_eq_true, if_false, Option.getD_some]
    unfold convertTokens
    by_cases hemp : (getTokens fc s).isEmpty
    · simp [hemp]
    · simp only [bool_eq_false hemp, Bool.false_eq_true, if_false]
      rw [parseOrdinal_none_of_unknown fc.cfg _ hunk hjoin hsuf]
      rw [parseNumber_zero_of_unknown fc.cfg _ hunk]

unseal parseIntegerCore tokenizeL in
/-- C9 witness: the theorem applied to "hello world" (all tokens unknown,
result 0) and to the all-whitespace input "   " (error). -/
theorem claim_C9_witness :
    convertWords enFc false (some "hello world") = Except.ok 0 ∧
      (∃ e, convertWords enFc false (some "   ") = Except.error e) := by
  have h := claim_C9_raises_iff enFc false (some "hello world")
  have h2 := claim_C9_raises_iff enFc false (some "   ")
  constructor
  · exact h.2 "hello world" rfl (by decide) (by decide) (by decide)
      (by
        intro suf hs
        exact Option.noConfusion (show (none : Option String) = some suf from hs))
      rfl
  · exact h2.1.mpr (Or.inr ⟨"   ", rfl, by decide⟩)

/-! ## Claim C7: the derived scale-magnitude set -/

theorem contains_iff_mem {α : Type} [BEq α] [LawfulBEq α] (l : List α) (a : α) :
    l.contains a = true ↔ a ∈ l := by
  simp

/-- The test `scaleStep` applies to a mapped value. -/
def scaleCond (n : Nat) : Bool :=
  SCALE_VALUES.contains n ||
    (decide (n ≥ 100) && n % 2 == 0 && SCALE_VALUES.contains (n / 2))

theorem mem_scaleStep (acc : List Nat) (p : String × Nat) (x : Nat) :
    x ∈ scaleStep acc p ↔ x ∈ acc ∨ (p.2 = x ∧ scaleCond x = true) := by
  by_cases hmem : p.2 ∈ acc
  · have hres : scaleStep acc p = acc := by
      unfold scaleStep
      simp [hmem]
    rw [hres]
    constructor
    · exact Or.inl
    · rintro (h | ⟨rfl, _⟩)
      · exact h
      · exact hmem
  · by_cases hsv : p.2 ∈ SCALE_VALUES
    · have hres : scaleStep acc p = acc ++ [p.2] := by
        unfold scaleStep
        simp [hmem, hsv]
      rw [hres]
      simp only [List.mem_append, List.mem_singleton]
      constructor
      · rintro (h | rfl)
        · exact Or.inl h
        · exact Or.inr ⟨rfl, by simp [scaleCond, hsv]⟩
      · rintro (h | ⟨rfl, _⟩)
        · exact Or.inl h
        · exact Or.inr rfl
    · by_cases hd : (100 ≤ p.2 ∧ p.2 % 2 = 0) ∧ p.2 / 2 ∈ SCALE_VALUES
      · have hres : scaleStep acc p = acc ++ [p.2] := by
          unfold scaleStep
          simp [hmem, hsv, hd.1.1, hd.1.2, hd.2]
        rw [hres]
        simp only [List.mem_append, List.mem_singleton]
        constructor
        · rintro (h | rfl)
          · exact Or.inl h
          · exact Or.inr ⟨rfl, by simp [scaleCond, hd.1.1, hd.1.2, hd.2]⟩
        · rintro (h | ⟨rfl, _⟩)
          · exact Or.inl h
          · exact Or.inr rfl
      · have hres : scaleStep acc p = acc := by
          unfold scaleStep
          simp [hmem, hsv, hd]
        rw [hres]
        constructor
        · exact Or.inl
        · rintro (h | ⟨rfl, hc⟩)
          · exact h
          · exfalso
            simp [scaleCond, hsv] at hc
            exact hd ⟨hc.1, hc.2⟩

theorem mem_scale_fold (entries : List (String × Nat)) :
    ∀ (acc : List Nat) (x : Nat),
      x ∈ entries.foldl scaleStep acc ↔
        x ∈ acc ∨ ∃ p ∈ entries, p.2 = x ∧ scaleCond x = true := by
  induction entries with
  | nil => intro acc x; simp
  | cons e rest ih =>
    intro acc x
    simp only [List.foldl_cons, ih, mem_scaleStep, List.mem_cons]
    constructor
    · rintro ((h | h) | ⟨p, hp, h⟩)
      · exact Or.inl h
      · exact Or.inr ⟨e, Or.inl rfl, h⟩
      · exact Or.inr ⟨p, Or.inr hp, h⟩
    · rintro (h | ⟨p, hp | hp, h⟩)
      · exact Or.inl (Or.inl h)
      · exact Or.inl (Or.inr (hp ▸ h))
      · exact Or.inr ⟨p, hp, h⟩

theorem scaleCond_iff (x : Nat) :
    scaleCond x = true ↔ x ∈ SCALE_VALUES ∨ ∃ s ∈ SCALE_VALUES, x = 2 * s := by
  have hge : ∀ s ∈ SCALE_VALUES, 100 ≤ s := by decide
  unfold scaleCond
  simp only [Bool.or_eq_true, Bool.and_eq_true, decide_eq_true_eq, beq_iff_eq]
  constructor
  · rintro (h | ⟨⟨h100, heven⟩, hhalf⟩)
    · exact Or.inl ((contains_iff_mem _ _).mp h)
    · refine Or.inr ⟨x / 2, (contains_iff_mem _ _).mp hhalf, ?_⟩
      omega
  · rintro (h | ⟨s, hs, rfl⟩)
    · exact Or.inl ((contains_iff_mem _ _).mpr h)
    · refine Or.inr ⟨⟨?_, ?_⟩, ?_⟩
      · have := hge s hs
        omega
      · omega
      · have h2 : 2 * s / 2 = s := by omega
        rw [h2]
        exact (contains_iff_mem _ _).mpr hs

/-- The magnitude set asserted by the claim: 100, 1000, 10^4..10^9, 10^11,
10^12, 10^13, 10^15, 10^16 (it omits 10^10 and 10^14, which the source's
`SCALE_VALUES` contains). -/
def specScaleMagnitudes : List Nat :=
  [100, 1000, 10000, 100000, 1000000, 10000000, 100000000, 1000000000,
   100000000000, 1000000000000, 10000000000000, 1000000000000000,
   10000000000000000]

/-- C7 counterexample: the code treats 10^10 (Ten Billion) as a scale
magnitude, but 10^10 is neither in the claim's fixed set nor twice one of
its members, so the claim's "no other value is ever treated as a scale
word" fails at a grammar mapping a word to 10^10. -/
theorem claim_C7_counterexample :
    10000000000 ∈ extractScaleWords [("tenbillion", 10000000000)] ∧
      specScaleMagnitudes.contains 10000000000 = false ∧
      (∀ s ∈ specScaleMagnitudes, (10000000000 : Nat) ≠ 2 * s) := by
  refine ⟨by decide, by decide, by decide⟩

/-- C7, amended: the compiled set of scale magnitudes consists of exactly
the mapped values lying in the fixed set of all powers of ten from 10^2 to
10^16 (`SCALE_VALUES`, which also holds 10^10 and 10^14), plus any mapped
value equal to twice one of those magnitudes; no other value is treated
as a scale word. -/
theorem claim_C7_scale_magnitudes (m : List (String × Nat)) (x : Nat) :
    x ∈ extractScaleWords m ↔
      ((∃ k, (k, x) ∈ m) ∧
        (x ∈ SCALE_VALUES ∨ ∃ s ∈ SCALE_VALUES, x = 2 * s)) := by
  unfold extractScaleWords
  rw [mem_scale_fold]
  simp only [List.not_mem_nil, false_or]
  constructor
  · rintro ⟨p, hp, rfl, hcond⟩
    exact ⟨⟨p.1, hp⟩, (scaleCond_iff p.2).mp hcond⟩
  · rintro ⟨⟨k, hk⟩, hcond⟩
    exact ⟨(k, x), hk, rfl, (scaleCond_iff x).mpr hcond⟩

/-- C7 witness: 200 = 2×100 is derived as a scale magnitude from a map
containing it, while a mapped 7 is not. -/
theorem claim_C7_witness :
    200 ∈ extractScaleWords [("dvesta", 200), ("foo", 7)] ∧
      ¬ 7 ∈ extractScaleWords [("dvesta", 200), ("foo", 7)] := by
  constructor
  · exact (claim_C7_scale_magnitudes [("dvesta", 200), ("foo", 7)] 200).mpr
      ⟨⟨"dvesta", by decide⟩, Or.inr ⟨100, by decide, by decide⟩⟩
  · intro h
    have h2 := (claim_C7_scale_magnitudes [("dvesta", 200), ("foo", 7)] 7).mp h
    rcases h2 with ⟨_, h3 | ⟨s, hs, heq⟩⟩
    · exact absurd h3 (by decide)
    · have : 100 ≤ s := by
        have hge : ∀ u ∈ SCALE_VALUES, 100 ≤ u := by decide
        exact hge s hs
      omega

/-! ## Unfolding equations for the integer parser -/

theorem parseIntegerCore_of_some (cfg : ParserConfig) (ts : List String)
    (i v : Nat) (h : findHighestScale cfg ts = some (i, v)) :
    parseIntegerCore cfg ts =
      (if i = 0 then
        if cfg.impliedDualWords.contains (ts.getD 0 "") then 2 else 1
       else if parseIntegerCore cfg (ts.take i) = 0 then 1
       else parseIntegerCore cfg (ts.take i)) * v +
      (if (ts.drop (i + 1)).isEmpty then 0
       else if cfg.usesPostfixOne && i == 0 && (ts.drop (i + 1)).length == 1 &&
           cfg.oneWords.contains ((ts.drop (i + 1)).headD "") &&
           (scaleValAt cfg ((ts.drop (i + 1)).headD "")).isNone then 0
       else parseIntegerCore cfg (ts.drop (i + 1))) := by
  rw [parseIntegerCore]
  split
  · next heq => rw [h] at heq; cases heq
  · next i' v' heq =>
    rw [h] at heq
    injection heq with h2
    cases h2
    rfl

theorem not_mem_of_contains_false {α : Type} [BEq α] [LawfulBEq α]
    {l : List α} {a : α} (h : l.contains a = false) : a ∉ l := by
  intro hm
  rw [(contains_iff_mem _ _).mpr hm] at h
  cases h

/-! ## Claim C2: the postfix-one qualifier -/

/-- C2: in a grammar with `usesPostfixOne`, a scale word with no explicit
coefficient followed by exactly one "one"-word (that is not itself a
scale word) parses to the bare magnitude - the trailing "one" is
suppressed - while an explicit leading coefficient disables the
suppression: `[one, scale, one]` parses to `magnitude + 1`. -/
theorem claim_C2_postfix_one (cfg : ParserConfig) (w u u' : String) (v : Nat)
    (hw : List.lookup w cfg.wordToNumber = some v)
    (hwscale : cfg.scaleWords.contains v = true)
    (hv : 0 < v)
    (hu : List.lookup u cfg.wordToNumber = some 1)
    (hu' : List.lookup u' cfg.wordToNumber = some 1)
    (hone : cfg.oneWords.contains u = true)
    (h1 : cfg.scaleWords.contains 1 = false)
    (hpf : cfg.usesPostfixOne = true)
    (hdual : cfg.impliedDualWords.contains w = false)
    (hwand : cfg.andTexts.contains w = false)
    (huand : cfg.andTexts.contains u = false)
    (hu'and : cfg.andTexts.contains u' = false) :
    parseIntegerTokens cfg [w, u] = v ∧
      parseIntegerTokens cfg [u', w, u] = v + 1 := by
  have hwscale2 : v ∈ cfg.scaleWords := (contains_iff_mem _ _).mp hwscale
  have h1m : (1 : Nat) ∉ cfg.scaleWords := not_mem_of_contains_false h1
  have hwand2 : w ∉ cfg.andTexts := not_mem_of_contains_false hwand
  have huand2 : u ∉ cfg.andTexts := not_mem_of_contains_false huand
  have hu'and2 : u' ∉ cfg.andTexts := not_mem_of_contains_false hu'and
  have hdual2 : w ∉ cfg.impliedDualWords := not_mem_of_contains_false hdual
  have hone2 : u ∈ cfg.oneWords := (contains_iff_mem _ _).mp hone
  have hsw : scaleValAt cfg w = some v := by simp [scaleValAt, hw, hwscale2]
  have hsu : scaleValAt cfg u = none := by simp [scaleValAt, hu, h1m]
  have hsu' : scaleValAt cfg u' = none := by simp [scaleValAt, hu', h1m]
  have hcu : parseIntegerCore cfg [u] = 1 := by
    rw [parseIntegerCore_of_none cfg [u]
      (by simp [findHighestScale, fhsAux, fhsStep, hsu])]
    simp [sumSimpleNumbers, hu]
  have hcu' : parseIntegerCore cfg [u'] = 1 := by
    rw [parseIntegerCore_of_none cfg [u']
      (by simp [findHighestScale, fhsAux, fhsStep, hsu'])]
    simp [sumSimpleNumbers, hu']
  constructor
  · have hfilter : ([w, u] : List String).filter
        (fun t => !cfg.andTexts.contains t) = [w, u] := by
      simp [hwand2, huand2]
    have hfhs : findHighestScale cfg [w, u] = some (0, v) := by
      simp [findHighestScale, fhsAux, fhsStep, hsw, hsu, bestVal, hv]
    unfold parseIntegerTokens
    rw [hfilter, parseIntegerCore_of_some cfg [w, u] 0 v hfhs]
    simp [hdual2, hpf, hone2, hsu]
  · have hfilter : ([u', w, u] : List String).filter
        (fun t => !cfg.andTexts.contains t) = [u', w, u] := by
      simp [hwand2, huand2, hu'and2]
    have hfhs : findHighestScale cfg [u', w, u] = some (1, v) := by
      simp [findHighestScale, fhsAux, fhsStep, hsw, hsu, hsu', bestVal, hv]
    unfold parseIntegerTokens
    rw [hfilter, parseIntegerCore_of_some cfg [u', w, u] 1 v hfhs]
    simp [hcu, hcu']

/-- C2 witness: the Swahili-style grammar: "mia moja" (hundred one) = 100
and "moja mia moja" (one hundred one) = 101. -/
theorem claim_C2_witness :
    parseIntegerTokens swCfg ["mia", "moja"] = 100 ∧
      parseIntegerTokens swCfg ["moja", "mia", "moja"] = 100 + 1 :=
  claim_C2_postfix_one swCfg "mia" "moja" "moja" 100 rfl rfl (by decide) rfl rfl
    rfl rfl rfl rfl rfl rfl rfl

/-! ## Lookup behaviour of the `Map.set` model -/

theorem lookup_map_replace (k : String) (v : Nat) :
    ∀ m : List (String × Nat), m.any (fun p => p.1 == k) = true →
      List.lookup k (m.map (fun p => if p.1 == k then (k, v) else p)) =
        some v := by
  intro m
  induction m with
  | nil => intro h; cases h
  | cons p rest ih =>
    intro h
    by_cases hk : p.1 = k
    · have h1 : (p.1 == k) = true := by simp [hk]
      simp only [List.map_cons]
      rw [if_pos h1]
      simp [List.lookup]
    · have h1 : (p.1 == k) = false := by simp [hk]
      have h2 : (k == p.1) = false :=
        beq_eq_false_iff_ne.mpr fun he => hk he.symm
      rw [List.any_cons, h1, Bool.false_or] at h
      simp only [List.map_cons]
      rw [if_neg (by simp [h1])]
      simp only [List.lookup, h2]
      exact ih h

theorem lookup_append_not_found (k : String) (v : Nat) :
    ∀ m : List (String × Nat), m.any (fun p => p.1 == k) = false →
      List.lookup k (m ++ [(k, v)]) = some v := by
  intro m
  induction m with
  | nil => intro _; simp [List.lookup]
  | cons p rest ih =>
    intro h
    rw [List.any_cons, Bool.or_eq_false_iff] at h
    have h2 : (k == p.1) = false :=
      beq_eq_false_iff_ne.mpr
        fun he => beq_eq_false_iff_ne.mp h.1 he.symm
    simp [List.lookup, h2, ih h.2]

/-- Setting a key makes it look up to the new value, whatever the map. -/
theorem lookup_mapSet_self (m : List (String × Nat)) (k : String) (v : Nat) :
    List.lookup k (mapSet m k v) = some v := by
  unfold mapSet
  by_cases h : m.any (fun p => p.1 == k) = true
  · rw [if_pos h]
    exact lookup_map_replace k v m h
  · rw [if_neg h]
    exact lookup_append_not_found k v m (bool_eq_false h)

theorem lookup_map_replace_ne (k k' : String) (v : Nat) (hne : k' ≠ k) :
    ∀ m : List (String × Nat),
      List.lookup k' (m.map (fun p => if p.1 == k then (k, v) else p)) =
        List.lookup k' m := by
  intro m
  induction m with
  | nil => rfl
  | cons p rest ih =>
    by_cases hk : p.1 = k
    · have h1 : (p.1 == k) = true := by simp [hk]
      have h2 : (k' == k) = false := beq_eq_false_iff_ne.mpr hne
      have h3 : (k' == p.1) = false := by rw [hk]; exact h2
      simp only [List.map_cons]
      rw [if_pos h1]
      simp only [List.lookup, h2, h3]
      exact ih
    · have h1 : (p.1 == k) = false := by simp [hk]
      simp only [List.map_cons]
      rw [if_neg (by simp [h1])]
      cases hb : (k' == p.1)
      · simp only [List.lookup, hb]
        exact ih
      · simp only [List.lookup, hb]

theorem lookup_append_ne (k k' : String) (v : Nat) (hne : k' ≠ k) :
    ∀ m : List (String × Nat),
      List.lookup k' (m ++ [(k, v)]) = List.lookup k' m := by
  intro m
  induction m with
  | nil =>
    have h1 : (k' == k) = false := beq_eq_false_iff_ne.mpr hne
    simp [List.lookup, h1]
  | cons p rest ih =>
    cases hb : (k' == p.1) <;> simp [List.lookup, hb, ih]

/-- Setting one key leaves every other key's lookup unchanged. -/
theorem lookup_mapSet_ne (m : List (String × Nat)) (k k' : String) (v : Nat)
    (hne : k' ≠ k) :
    List.lookup k' (mapSet m k v) = List.lookup k' m := by
  unfold mapSet
  by_cases h : m.any (fun p => p.1 == k) = true
  · rw [if_pos h]
    exact lookup_map_replace_ne k k' v hne m
  · rw [if_neg h]
    exact lookup_append_ne k k' v hne m

/-! ## Membership in `extractImpliedDualWords` -/

theorem mem_impliedDualStep (cs : Bool) (acc : List String)
    (nf : Nat × PluralForms) {d : String} (h : d ∈ acc) :
    d ∈ impliedDualStep cs acc nf := by
  unfold impliedDualStep
  rcases hdn : normOpt cs nf.2.dual with _ | d'
  · simpa [hdn] using h
  · simp only [hdn]
    split
    · exact List.mem_append_left _ h
    · exact h

theorem impliedDualStep_adds (cs : Bool) (acc : List String)
    (nf : Nat × PluralForms) (d : String)
    (hd : normOpt cs nf.2.dual = some d)
    (hor : normOpt cs nf.2.paucal = some d ∨ normOpt cs nf.2.plural = some d) :
    d ∈ impliedDualStep cs acc nf := by
  have hb : ((normOpt cs nf.2.paucal == some d) ||
      (normOpt cs nf.2.plural == some d)) = true := by
    rcases hor with h | h <;> simp [h]
  simp only [impliedDualStep, hd, hb, Bool.true_and]
  cases hc : acc.contains d
  · simp [hc]
  · have : d ∈ acc := (contains_iff_mem _ _).mp hc
    simp [hc, this]

theorem mem_impliedDual_fold (cs : Bool) :
    ∀ (l : List (Nat × PluralForms)) (acc : List String) (d : String),
      d ∈ acc → d ∈ l.foldl (impliedDualStep cs) acc := by
  intro l
  induction l with
  | nil => intro acc d h; exact h
  | cons nf rest ih =>
    intro acc d h
    exact ih _ d (mem_impliedDualStep cs acc nf h)

theorem mem_impliedDual_fold_of_entry (cs : Bool) (n : Nat)
    (forms : PluralForms) (d : String)
    (hd : normOpt cs forms.dual = some d)
    (hor : normOpt cs forms.paucal = some d ∨
      normOpt cs forms.plural = some d) :
    ∀ (l : List (Nat × PluralForms)) (acc : List String),
      (n, forms) ∈ l → d ∈ l.foldl (impliedDualStep cs) acc := by
  intro l
  induction l with
  | nil => intro acc h; cases h
  | cons nf rest ih =>
    intro acc h
    rcases List.mem_cons.mp h with heq | hrest
    · cases heq
      exact mem_impliedDual_fold cs rest _ d
        (impliedDualStep_adds cs acc (n, forms) d hd hor)
    · exact ih _ hrest

/-! ## Claim C3: implied-dual words -/

/-- C3: an implied-dual scale word parses bare to twice its magnitude,
but an explicit preceding coefficient suppresses the doubling
(`coef * magnitude`); on the compiler side, a dual plural form distinct
from both the paucal and the plural form is mapped straight to twice the
base magnitude in the word map, while a dual form identical to the
paucal or plural form is recorded as an implied-dual word instead. -/
theorem claim_C3_implied_dual (cfg : ParserConfig) (w c : String) (v m : Nat)
    (hw : List.lookup w cfg.wordToNumber = some v)
    (hwscale : cfg.scaleWords.contains v = true)
    (hv : 0 < v)
    (hdual : cfg.impliedDualWords.contains w = true)
    (hc : List.lookup c cfg.wordToNumber = some m)
    (hcscale : cfg.scaleWords.contains m = false)
    (hm : m ≠ 0)
    (hwand : cfg.andTexts.contains w = false)
    (hcand : cfg.andTexts.contains c = false) :
    parseIntegerTokens cfg [w] = 2 * v ∧
      parseIntegerTokens cfg [c, w] = m * v ∧
      (∀ (oc : OriginalConfig) (cs : Bool) (n : Nat) (forms : PluralForms)
          (d : String),
        oc.pluralForms = [(n, forms)] →
        normOpt cs forms.dual = some d →
        normOpt cs forms.paucal ≠ some d →
        normOpt cs forms.plural ≠ some d →
        List.lookup d (buildWordToNumberMap oc cs) = some (n * 2)) ∧
      (∀ (oc : OriginalConfig) (cs : Bool) (n : Nat) (forms : PluralForms)
          (d : String),
        (n, forms) ∈ oc.pluralForms →
        normOpt cs forms.dual = some d →
        (normOpt cs forms.paucal = some d ∨
          normOpt cs forms.plural = some d) →
        d ∈ extractImpliedDualWords oc cs) := by
  have hwscale2 : v ∈ cfg.scaleWords := (contains_iff_mem _ _).mp hwscale
  have hcscale2 : m ∉ cfg.scaleWords := not_mem_of_contains_false hcscale
  have hwand2 : w ∉ cfg.andTexts := not_mem_of_contains_false hwand
  have hcand2 : c ∉ cfg.andTexts := not_mem_of_contains_false hcand
  have hdual2 : w ∈ cfg.impliedDualWords := (contains_iff_mem _ _).mp hdual
  have hsw : scaleValAt cfg w = some v := by simp [scaleValAt, hw, hwscale2]
  have hsc : scaleValAt cfg c = none := by simp [scaleValAt, hc, hcscale2]
  refine ⟨?_, ?_, ?_, ?_⟩
  · have hfilter : ([w] : List String).filter
        (fun t => !cfg.andTexts.contains t) = [w] := by
      simp [hwand2]
    have hfhs : findHighestScale cfg [w] = some (0, v) := by
      simp [findHighestScale, fhsAux, fhsStep, hsw, bestVal, hv]
    unfold parseIntegerTokens
    rw [hfilter, parseIntegerCore_of_some cfg [w] 0 v hfhs]
    simp [hdual2]
  · have hfilter : ([c, w] : List String).filter
        (fun t => !cfg.andTexts.contains t) = [c, w] := by
      simp [hwand2, hcand2]
    have hfhs : findHighestScale cfg [c, w] = some (1, v) := by
      simp [findHighestScale, fhsAux, fhsStep, hsw, hsc, bestVal, hv]
    have hcc : parseIntegerCore cfg [c] = m := by
      rw [parseIntegerCore_of_none cfg [c]
        (by simp [findHighestScale, fhsAux, fhsStep, hsc])]
      simp [sumSimpleNumbers, hc]
    unfold parseIntegerTokens
    rw [hfilter, parseIntegerCore_of_some cfg [c, w] 1 v hfhs]
    simp [hcc, hm]
  · intro oc cs n forms d hpf hd hpne hplne
    have hb1 : (normOpt cs forms.paucal != some d) = true := bne_iff_ne.mpr hpne
    have hb2 : (normOpt cs forms.plural != some d) = true := bne_iff_ne.mpr hplne
    unfold buildWordToNumberMap
    rw [hpf]
    simp only [List.foldl_cons, List.foldl_nil, hd, hb1, hb2, Bool.and_self,
      if_true]
    rcases hpa : normOpt cs forms.paucal with _ | pc
    · rcases hpl : normOpt cs forms.plural with _ | pl
      · exact lookup_mapSet_self _ d (n * 2)
      · have hplne2 : d ≠ pl := by
          intro h
          exact hplne (by rw [hpl, h])
        rw [lookup_mapSet_ne _ pl d n hplne2]
        exact lookup_mapSet_self _ d (n * 2)
    · have hpne2 : d ≠ pc := by
        intro h
        exact hpne (by rw [hpa, h])
      rcases hpl : normOpt cs forms.plural with _ | pl
      · rw [lookup_mapSet_ne _ pc d n hpne2]
        exact lookup_mapSet_self _ d (n * 2)
      · have hplne2 : d ≠ pl := by
          intro h
          exact hplne (by rw [hpl, h])
        rw [lookup_mapSet_ne _ pl d n hplne2,
          lookup_mapSet_ne _ pc d n hpne2]
        exact lookup_mapSet_self _ d (n * 2)
  · intro oc cs n forms d hmem hd hor
    exact mem_impliedDual_fold_of_entry cs n forms d hd hor
      oc.pluralForms [] hmem

/-- Original-config fixture with a dual plural form distinct from the
paucal and plural forms (Arabic-style "alfan" = two thousand). -/
def arOrig : OriginalConfig where
  numberWordsMapping := []
  exactWordsMapping := []
  pluralMark := none
  pluralWords := []
  pluralForms := [(1000, ⟨some "alfan", some "alaf", some "alf"⟩)]

/-- Original-config fixture whose dual form equals its plural form
(Italian-style "milioni"). -/
def itOrig : OriginalConfig where
  numberWordsMapping := []
  exactWordsMapping := []
  pluralMark := none
  pluralWords := []
  pluralForms := [(1000000, ⟨some "milioni", none, some "milioni"⟩)]

/-- C3 witness: bare "milioni" = 2 000 000 but "dieci milioni" =
10 000 000; "alfan" maps to 2000 in the compiled word map; "milioni" is
extracted as an implied-dual word. -/
theorem claim_C3_witness :
    parseIntegerTokens itCfg ["milioni"] = 2 * 1000000 ∧
      parseIntegerTokens itCfg ["dieci", "milioni"] = 10 * 1000000 ∧
      List.lookup "alfan" (buildWordToNumberMap arOrig false) =
        some (1000 * 2) ∧
      "milioni" ∈ extractImpliedDualWords itOrig false := by
  obtain ⟨h1, h2, h3, h4⟩ := claim_C3_implied_dual itCfg "milioni" "dieci"
    1000000 10 rfl rfl (by decide) rfl rfl rfl (by decide) rfl rfl
  refine ⟨h1, h2, ?_, ?_⟩
  · exact h3 arOrig false 1000 ⟨some "alfan", some "alaf", some "alf"⟩
      "alfan" rfl (by decide) (by decide) (by decide)
  · exact h4 itOrig false 1000000 ⟨some "milioni", none, some "milioni"⟩
      "milioni" (by decide) (by decide) (Or.inr (by decide))

/-! ## The highest-scale scan, characterized -/

theorem parseIntegerCore_nil (cfg : ParserConfig) :
    parseIntegerCore cfg [] = 0 := by
  rw [parseIntegerCore_of_none cfg [] rfl]
  rfl

theorem fhsStep_ge (cfg : ParserConfig) (idx : Nat) (acc : Option (Nat × Nat))
    (t : String) (w : Nat) (h : scaleValAt cfg t = some w) :
    w ≤ bestVal (fhsStep cfg idx acc t) := by
  simp only [fhsStep, h]
  by_cases hlt : bestVal acc < w
  · rw [if_pos hlt]
    exact le_refl w
  · rw [if_neg hlt]
    omega

theorem fhsStep_mono (cfg : ParserConfig) (idx : Nat)
    (acc : Option (Nat × Nat)) (t : String) :
    bestVal acc ≤ bestVal (fhsStep cfg idx acc t) := by
  rcases h : scaleValAt cfg t with _ | n <;> simp only [fhsStep, h]
  · exact le_refl _
  · by_cases hlt : bestVal acc < n
    · rw [if_pos hlt]
      show bestVal acc ≤ n
      omega
    · rw [if_neg hlt]

theorem fhsAux_mono (cfg : ParserConfig) :
    ∀ (ts : List String) (idx : Nat) (acc : Option (Nat × Nat)),
      bestVal acc ≤ bestVal (fhsAux cfg ts idx acc) := by
  intro ts
  induction ts with
  | nil => intro idx acc; exact le_refl _
  | cons t rest ih =>
    intro idx acc
    exact le_trans (fhsStep_mono cfg idx acc t) (ih (idx + 1) _)

theorem fhsAux_ge_elem (cfg : ParserConfig) :
    ∀ (ts : List String) (idx : Nat) (acc : Option (Nat × Nat)) (j w : Nat),
      j < ts.length → scaleValAt cfg (ts.getD j "") = some w →
      w ≤ bestVal (fhsAux cfg ts idx acc) := by
  intro ts
  induction ts with
  | nil =>
    intro idx acc j w hj
    simp at hj
  | cons t rest ih =>
    intro idx acc j w hj hw
    show w ≤ bestVal (fhsAux cfg rest (idx + 1) (fhsStep cfg idx acc t))
    cases j with
    | zero =>
      exact le_trans (fhsStep_ge cfg idx acc t w (by simpa using hw))
        (fhsAux_mono cfg rest (idx + 1) _)
    | succ j' =>
      exact ih (idx + 1) _ j' w (by simpa using hj) (by simpa using hw)

theorem fhsAux_noScale (cfg : ParserConfig) :
    ∀ (ts : List String) (idx : Nat) (acc : Option (Nat × Nat)),
      (∀ t ∈ ts, scaleValAt cfg t = none) → fhsAux cfg ts idx acc = acc := by
  intro ts
  induction ts with
  | nil => intro idx acc _; rfl
  | cons t rest ih =>
    intro idx acc h
    show fhsAux cfg rest (idx + 1) (fhsStep cfg idx acc t) = acc
    have ht : scaleValAt cfg t = none := h t (List.mem_cons_self t rest)
    have hstep : fhsStep cfg idx acc t = acc := by
      simp [fhsStep, ht]
    rw [hstep]
    exact ih (idx + 1) acc (fun u hu => h u (List.mem_cons_of_mem t hu))

/-- Where the scan's answer comes from: it is either the incoming
candidate unchanged, or it was set at a position of the list holding a
scale value strictly above the incoming best, with every earlier scale
value strictly below it. -/
theorem fhsAux_result_cases (cfg : ParserConfig) :
    ∀ (ts : List String) (idx : Nat) (acc : Option (Nat × Nat)) (i v : Nat),
      fhsAux cfg ts idx acc = some (i, v) →
      acc = some (i, v) ∨
        (idx ≤ i ∧ i - idx < ts.length ∧
          scaleValAt cfg (ts.getD (i - idx) "") = some v ∧
          bestVal acc < v ∧
          (∀ j, j < i - idx → ∀ w,
            scaleValAt cfg (ts.getD j "") = some w → w < v)) := by
  intro ts
  induction ts with
  | nil => intro idx acc i v h; exact Or.inl h
  | cons t rest ih =>
    intro idx acc i v h
    have h' : fhsAux cfg rest (idx + 1) (fhsStep cfg idx acc t) = some (i, v) := h
    rcases ih (idx + 1) (fhsStep cfg idx acc t) i v h' with
      hstep | ⟨hge, hlen, hval, hbest, hbef⟩
    · rcases hs : scaleValAt cfg t with _ | n <;>
        simp only [fhsStep, hs] at hstep
      · exact Or.inl hstep
      · by_cases hlt : bestVal acc < n
        · rw [if_pos hlt] at hstep
          injection hstep with he
          injection he with he1 he2
          subst he1
          subst he2
          refine Or.inr ⟨le_refl idx, by simp, by simpa using hs, hlt, ?_⟩
          intro j hj
          simp at hj
        · rw [if_neg hlt] at hstep
          exact Or.inl hstep
    · refine Or.inr ⟨le_trans (Nat.le_succ idx) hge, ?_, ?_, ?_, ?_⟩
      · simp only [List.length_cons]
        omega
      · have h1 : i - idx = (i - (idx + 1)) + 1 := by omega
        rw [h1]
        simpa using hval
      · exact lt_of_le_of_lt (fhsStep_mono cfg idx acc t) hbest
      · intro j hj w hw
        cases j with
        | zero =>
          exact lt_of_le_of_lt
            (fhsStep_ge cfg idx acc t w (by simpa using hw)) hbest
        | succ j' =>
          exact hbef j' (by omega) w (by simpa using hw)

/-! ## Claim C1: the recursive integer algorithm -/

/-- C1: for a grammar without implied-dual words and without the
postfix-one rule (those refinements are claims C3 and C2), integer
parsing drops conjunction tokens, sums the mapped values when no token
has a scale magnitude, and otherwise splits at the first occurrence of
the greatest scale magnitude, parsing the left part as the coefficient
(empty left gives 1, a left parse of 0 defaults to 1) and the right part
as the remainder, returning coefficient × magnitude + remainder. -/
theorem claim_C1_integer_recursion (cfg : ParserConfig) (ts : List String)
    (hdual : cfg.impliedDualWords = [])
    (hpf : cfg.usesPostfixOne = false) :
    parseIntegerTokens cfg ts =
      parseIntegerCore cfg (ts.filter (fun t => !cfg.andTexts.contains t)) ∧
    ((∀ t ∈ ts, scaleValAt cfg t = none) →
      parseIntegerCore cfg ts = sumSimpleNumbers cfg ts) ∧
    (∀ i v, findHighestScale cfg ts = some (i, v) →
      i < ts.length ∧ 0 < v ∧
      scaleValAt cfg (ts.getD i "") = some v ∧
      (∀ j w, j < ts.length →
        scaleValAt cfg (ts.getD j "") = some w → w ≤ v) ∧
      (∀ j, j < i → ∀ w,
        scaleValAt cfg (ts.getD j "") = some w → w < v) ∧
      parseIntegerCore cfg ts =
        (if i = 0 then 1
         else if parseIntegerCore cfg (ts.take i) = 0 then 1
         else parseIntegerCore cfg (ts.take i)) * v +
        parseIntegerCore cfg (ts.drop (i + 1))) := by
  refine ⟨rfl, ?_, ?_⟩
  · intro hns
    exact parseIntegerCore_of_none cfg ts (fhsAux_noScale cfg ts 0 none hns)
  · intro i v hfhs
    have hfhs' : fhsAux cfg ts 0 none = some (i, v) := hfhs
    have hlt := findHighestScale_lt cfg ts i v hfhs
    rcases fhsAux_result_cases cfg ts 0 none i v hfhs' with
      hl | ⟨_, _, hval, hbest, hbef⟩
    · exact Option.noConfusion hl
    · have hv : 0 < v := by simpa [bestVal] using hbest
      have hmax : ∀ j w, j < ts.length →
          scaleValAt cfg (ts.getD j "") = some w → w ≤ v := by
        intro j w hj hw
        have h := fhsAux_ge_elem cfg ts 0 none j w hj hw
        rw [hfhs'] at h
        simpa [bestVal] using h
      refine ⟨hlt, hv, by simpa using hval, hmax, by simpa using hbef, ?_⟩
      rw [parseIntegerCore_of_some cfg ts i v hfhs]
      have hd : cfg.impliedDualWords.contains (ts.getD 0 "") = false := by
        rw [hdual]
        rfl
      simp only [hd, hpf, Bool.false_and, Bool.false_eq_true, if_false]
      cases hre : (ts.drop (i + 1)).isEmpty
      · simp
      · have hnil : ts.drop (i + 1) = [] := by simpa using hre
        rw [hnil, parseIntegerCore_nil]
        simp

/-- C1 witness: in the English grammar, "two hundred three" keeps all
tokens after conjunction filtering and splits at "hundred":
coefficient parse of ["two"] times 100 plus remainder parse of
["three"]. -/
theorem claim_C1_witness :
    parseIntegerTokens enCfg ["two", "hundred", "three"] =
      parseIntegerCore enCfg (["two", "hundred", "three"].filter
        (fun t => !enCfg.andTexts.contains t)) ∧
    parseIntegerCore enCfg ["two", "hundred", "three"] =
      (if (1 : Nat) = 0 then 1
       else if parseIntegerCore enCfg
           (["two", "hundred", "three"].take 1) = 0 then 1
       else parseIntegerCore enCfg (["two", "hundred", "three"].take 1)) *
        100 +
      parseIntegerCore enCfg (["two", "hundred", "three"].drop 2) := by
  obtain ⟨h1, _, h3⟩ := claim_C1_integer_recursion enCfg
    ["two", "hundred", "three"] rfl rfl
  exact ⟨h1, (h3 1 100 (by decide)).2.2.2.2.2⟩

end ToNumbers
